import Mathlib

/-!
# cpp-shell: a shallow embedding of `shell.cpp`

The development embeds the string utilities (`trim`, `split`), the pipeline
engine (`execute_command`), the built-ins of the read-eval loop and the
interrupt handler of `shell.cpp`, and proves properties of them.

Conventions of the embedding.

* A `std::string` is the list of its `char`s (`Str`), positions are natural
  numbers and `std::string::npos` is `none`.  Texts are assumed shorter than
  `2 ^ 31` characters, so that the `int` and `size_t` position arithmetic of
  the source is exact.
* The two loops of the source whose termination depends on the data
  (`split` and the stage splitting of `execute_command`) carry a fuel
  argument that counts loop iterations; running out of fuel is `none`.
* A text handed to a system call (`open`, `chdir`, `execvp`) is read there as a
  C string, up to its first NUL byte (`c_str`).
* System calls are events.  What the operating system answers (whether
  `pipe`, `open`, `dup2`, `execvp` succeed and what `fork` returns in the
  process that is running) is given by an oracle `OS`.  A process in which
  `fork` returns `0` is a child: the same function `execute_command`
  describes the shell and each of its children, under different oracles.
* Every event is recorded together with the process-wide variables
  (`Globals`) at the moment it happens; these are what the interrupt
  handler would see if the interrupt arrived there.
-/

namespace Shell

/-! ## Strings -/

/-- A `std::string`, as the list of its characters. -/
abbrev Str := List Char

/-- The constant `whitespace` of `trim`: space, `\t`, `\n`, `\r`, `\f`, `\v`. -/
def whitespace : Str := [' ', '\t', '\n', '\r', '\x0c', '\x0b']

/-- `s.find_first_not_of(set)`: index of the first character outside `set`. -/
def find_first_not_of : Str → Str → Option Nat
  | [], _ => none
  | c :: cs, set =>
    if set.contains c then (find_first_not_of cs set).map (· + 1) else some 0

/-- `s.find_last_not_of(set)`: index of the last character outside `set`. -/
def find_last_not_of : Str → Str → Option Nat
  | [], _ => none
  | c :: cs, set =>
    match find_last_not_of cs set with
    | some j => some (j + 1)
    | none => if set.contains c then none else some 0

/-- `s.substr(pos, n)`; every call of the source has `pos ≤ s.size()`. -/
def substr (s : Str) (pos n : Nat) : Str := (s.drop pos).take n

/-- `trim` (lines 253-260).  The inner `none` cannot happen: a string with a
first non-whitespace character has a last one. -/
def trim (str : Str) : Str :=
  match find_first_not_of str whitespace with
  | none => []
  | some start =>
    match find_last_not_of str whitespace with
    | none => []
    | some e => substr str start (e - start + 1)

/-- Does `s` begin with `d`? (the comparison made by `std::string::find`). -/
def startsWith : Str → Str → Bool
  | _, [] => true
  | [], _ :: _ => false
  | c :: cs, x :: xs => c == x && startsWith cs xs

/-- `s.find(d)`: the first position at which `d` occurs in `s`. -/
def find : Str → Str → Option Nat
  | [], d => if startsWith [] d then some 0 else none
  | c :: cs, d => if startsWith (c :: cs) d then some 0 else (find cs d).map (· + 1)

/-- `s.find(c, start)`: the first position `≥ start` holding the character `c`. -/
def findChar : Str → Char → Nat → Option Nat
  | [], _, _ => none
  | x :: xs, c, 0 => if x = c then some 0 else (findChar xs c 0).map (· + 1)
  | _ :: xs, c, start + 1 => (findChar xs c start).map (· + 1)

/-- The `while` loop of `split` (lines 270-284); `fuel` bounds the number of
iterations. -/
def splitLoop (delimiter : Str) : Nat → Str → List Str → Option (List Str)
  | 0, _, _ => none
  | fuel + 1, s, res =>
    match find s delimiter with
    | some pos =>
      let token := trim (substr s 0 pos)
      let res := if token.isEmpty then res else res ++ [token]
      splitLoop delimiter fuel (s.drop (pos + delimiter.length)) res
    | none =>
      let s := trim s
      some (if s.isEmpty then res else res ++ [s])

/-- `split` (lines 263-285).  Each iteration of the loop removes at least
`delimiter.length` characters, so `s.length + 1` iterations are enough for a
non-empty delimiter; with the empty delimiter the source loops forever and the
result is `none`. -/
def split (s delimiter : Str) : Option (List Str) :=
  let s := trim s
  splitLoop delimiter (s.length + 1) s []

/-- `s.c_str()` read as a C string by a system call: the characters before
the first NUL byte. -/
def c_str (s : Str) : Str := s.takeWhile (fun c => c != '\x00')

/-- `split(s, " ")`, the only way the shell itself calls `split`. -/
def splitWords (s : Str) : List Str := (split s [' ']).getD []

/-- `std::stringstream(tok) >> value` into an `int`, followed by the test
`!eof() || fail()` of the source: the token must be an optional sign and one
or more decimal digits, all of it consumed, with a value that fits in `int`. -/
def parseInt (tok : Str) : Option Int :=
  let neg := tok.head? = some '-'
  let body := if tok.head? = some '-' ∨ tok.head? = some '+' then tok.tail else tok
  if body.isEmpty || !body.all Char.isDigit then none
  else
    let mag : Nat := body.foldl (fun acc c => 10 * acc + (c.toNat - '0'.toNat)) 0
    let v : Int := if neg then -(mag : Int) else (mag : Int)
    if v < -(2 : Int) ^ 31 ∨ (2 : Int) ^ 31 - 1 < v then none else some v

/-! ## Process state, events, oracle -/

/-- The process-wide variables: `command_running`, `background_processes`
and `fg_pid` (lines 21, 22, 28). -/
structure Globals where
  command_running : Bool
  background_processes : List Int
  fg_pid : Int
deriving DecidableEq, Repr

/-- Observable actions of a process. `close i e` is `close(pipes[i][e])`,
`dup2Pipe i e fd` is `dup2(pipes[i][e], fd)`. -/
inductive Event where
  | pipe (i : Nat) (ok : Bool)
  | fork (i : Nat) (ret : Int)
  | setpgid (pid pgid : Int)
  | close (i e : Nat)
  | dup2Pipe (i e fd : Nat)
  | openIn (path : Str) (ok : Bool)
  | openOut (path : Str) (append ok : Bool)
  | dup2File (fd : Nat) (ok : Bool)
  | closeFile
  | execvp (argv : List Str)
  | waitpid (pid : Int)
  | kill (pid : Int) (sig : String)
  | sigaction (what : String)
  | getcwd (ok : Bool)
  | chdir (dir : Str) (ok : Bool)
  | print (msg : String)
  | printPid (pid : Int) (msg : String)
  | flush
deriving DecidableEq, Repr

/-- Is the event a `pipe()` call that allocated a pipe? -/
def Event.isPipe : Event → Bool
  | Event.pipe _ true => true
  | _ => false

/-- Is the event the closing of one end of a pipe? -/
def Event.isClose : Event → Bool
  | Event.close _ _ => true
  | _ => false

/-- Is the event a `fork()` call that created a child of the calling process
(a positive return value there)? -/
def Event.isFork : Event → Bool
  | Event.fork _ ret => decide (0 < ret)
  | _ => false

/-- An event with the process-wide variables at the moment it happens. -/
abbrev Trace := List (Event × Globals)

/-- The answers of the operating system to the process that is running. -/
structure OS where
  pipe : Nat → Bool
  fork : Nat → Int
  openIn : Str → Bool
  openOut : Str → Bool → Bool
  dup2 : Bool
  execvp : List Str → Bool
  getcwd : Bool
  home : Option Str
  chdir : Str → Bool

/-- How a process leaves the code under study. -/
inductive Outcome where
  | returned (g : Globals)
  | exited (code : Int)
  | replaced (argv : List Str)
  | aborted
deriving DecidableEq, Repr

/-- A run: what the process did and how it ended. `returned g` means that
control is back at the top of the read-eval loop with variables `g`;
`aborted` that the process was terminated by an uncaught exception. -/
structure Run where
  trace : Trace
  outcome : Outcome
deriving DecidableEq, Repr

/-- Tag a block of events with the current variables. -/
def emit (g : Globals) (evs : List Event) : Trace := evs.map (fun e => (e, g))

/-! ## The interrupt handler -/

/-- Lines 293-298: the background test and the removal of the final `&`.
`command.back()` is undefined on the empty string, which `main` never passes
(it calls `execute_command` only when `split(cmd, " ")` is non-empty); the
test is taken to fail there. -/
def stripBackground (cmd : Str) : Bool × Str :=
  if cmd.getLast? = some '&' then (true, trim (substr cmd 0 (cmd.length - 1)))
  else (false, cmd)

/-- The stage-splitting loop (lines 302-309); `fuel` bounds the iterations. -/
def pipeLoop (command : Str) : Nat → Nat → List Str → Option (List Str)
  | 0, _, _ => none
  | fuel + 1, start, commands =>
    match findChar command '|' start with
    | some pos =>
      pipeLoop command fuel (pos + 1) (commands ++ [substr command start (pos - start)])
    | none => some (commands ++ [command.drop start])

/-- The vector `commands` of `execute_command`.  Every iteration moves `start`
past one more character, so `command.length + 1` iterations are enough
(`pipeLoop_fuel`). -/
def splitStages (command : Str) : List Str :=
  (pipeLoop command (command.length + 1) 0 []).getD []

/-- Lines 353-356: input redirection of a stage text, as
`(input_source, residual text)`.  The source keeps the position in an `int`,
which is exact for the texts considered (shorter than `2 ^ 31`). -/
def resolveInput (text : Str) : Option (Str × Str) :=
  match findChar text '<' 0 with
  | none => none
  | some p => some (trim (text.drop (p + 1)), trim (substr text 0 p))

/-- Lines 381-396: output redirection of a stage text, as
`(output_append, output_file, residual text)`.  The test of the source is
`redirect_pos != size - 1 && commands[i][redirect_pos + 1] == '>'`. -/
def resolveOutput (text : Str) : Option (Bool × Str × Str) :=
  match findChar text '>' 0 with
  | none => none
  | some p =>
    if p ≠ text.length - 1 ∧ text.getD (p + 1) ' ' = '>' then
      some (true, trim (text.drop (p + 2)), trim (substr text 0 p))
    else
      some (false, trim (text.drop (p + 1)), trim (substr text 0 p))

/-- Lines 346-372: standard input of stage `i`.  The result is the events and
the stage text afterwards, or `none` when the child called `exit(1)`.  `open`
receives `input_source.c_str()`. -/
def wireStdin (os : OS) (i : Nat) (text : Str) : List Event × Option Str :=
  if 0 < i then
    ([Event.close (i - 1) 1, Event.dup2Pipe (i - 1) 0 0, Event.close (i - 1) 0], some text)
  else
    match resolveInput text with
    | none => ([], some text)
    | some (input_source, residual) =>
      if !os.openIn (c_str input_source) then
        ([Event.openIn (c_str input_source) false, Event.print "Error opening input file"],
          none)
      else if !os.dup2 then
        ([Event.openIn (c_str input_source) true, Event.dup2File 0 false,
          Event.print "Error redirecting input"], none)
      else
        ([Event.openIn (c_str input_source) true, Event.dup2File 0 true, Event.closeFile],
          some residual)

/-- Lines 374-419: standard output of stage `i` of `n`.  `open` receives
`output_file.c_str()`. -/
def wireStdout (os : OS) (n i : Nat) (text : Str) : List Event × Option Str :=
  if i < n - 1 then
    ([Event.close i 0, Event.dup2Pipe i 1 1, Event.close i 1], some text)
  else
    match resolveOutput text with
    | none => ([], some text)
    | some (output_append, output_file, residual) =>
      if !os.openOut (c_str output_file) output_append then
        ([Event.openOut (c_str output_file) output_append false, Event.print "open failed"],
          none)
      else if !os.dup2 then
        ([Event.openOut (c_str output_file) output_append true, Event.dup2File 1 false,
          Event.print "dup2 failed"], none)
      else
        ([Event.openOut (c_str output_file) output_append true, Event.dup2File 1 true,
          Event.closeFile], some residual)

/-- Closing both ends of each of the `m` pipes (lines 421-424 and 453-456). -/
def closeAll (m : Nat) : List Event :=
  (List.range m).flatMap (fun i => [Event.close i 0, Event.close i 1])

/-- What the child does at the end of its branch of the `for` loop. -/
inductive ChildNext where
  | exited (code : Int)
  | replaced (argv : List Str)
  | continueLoop
deriving DecidableEq, Repr

/-- The branch `pids[i] == 0` of the `for` loop (lines 333-443), run by the
child created for stage `i`.  `execvp` receives the words as C strings
(`&arg[0]`). -/
def childBody (os : OS) (background : Bool) (bg_pgid : Int) (n i : Nat) (text : Str) :
    List Event × ChildNext :=
  let e0 : List Event :=
    if background then
      (if i = 0 then [Event.setpgid 0 0] else [Event.setpgid 0 bg_pgid])
    else []
  match wireStdin os i text with
  | (e1, none) => (e0 ++ e1, ChildNext.exited 1)
  | (e1, some text1) =>
    match wireStdout os n i text1 with
    | (e2, none) => (e0 ++ e1 ++ e2, ChildNext.exited 1)
    | (e2, some text2) =>
      let e3 := closeAll (n - 1)
      let args := splitWords text2
      if args.isEmpty then (e0 ++ e1 ++ e2 ++ e3, ChildNext.continueLoop)
      else if os.execvp (args.map c_str) then
        (e0 ++ e1 ++ e2 ++ e3 ++ [Event.execvp (args.map c_str)],
          ChildNext.replaced (args.map c_str))
      else
        (e0 ++ e1 ++ e2 ++ e3 ++ [Event.execvp (args.map c_str), Event.print "perror"],
          ChildNext.exited 1)

/-- How the `for` loop over the stages ends. -/
inductive LoopEnd where
  | done (pids : List Int)
  | forkFailed
  | childExited (code : Int)
  | childReplaced (argv : List Str)
deriving DecidableEq, Repr

/-- The `for` loop of lines 327-450, from iteration `i` with `rem = n - i`
iterations left.  `os.fork i` is what `fork()` returns at iteration `i` in the
process that is running the loop. -/
def forkLoop (os : OS) (background : Bool) (commands : List Str) (n : Nat) :
    Nat → Nat → Int → List Int → List Event × LoopEnd
  | 0, _, _, pids => ([], LoopEnd.done pids)
  | rem + 1, i, bg_pgid, pids =>
    let pid := os.fork i
    let pids := pids.set i pid
    if pid < 0 then
      ([Event.fork i pid, Event.print "fork 调用失败"], LoopEnd.forkFailed)
    else if pid = 0 then
      match childBody os background bg_pgid n i (commands.getD i []) with
      | (evs, ChildNext.exited code) => (Event.fork i pid :: evs, LoopEnd.childExited code)
      | (evs, ChildNext.replaced argv) => (Event.fork i pid :: evs, LoopEnd.childReplaced argv)
      | (evs, ChildNext.continueLoop) =>
        let r := forkLoop os background commands n rem (i + 1) bg_pgid pids
        (Event.fork i pid :: evs ++ r.1, r.2)
    else
      let bg_pgid := if background && i == 0 then pid else bg_pgid
      let r := forkLoop os background commands n rem (i + 1) bg_pgid pids
      (Event.fork i pid :: r.1, r.2)

/-- The pipe-creation loop (lines 318-323) over pipes `i, i+1, ...`, `rem` of
them; the flag tells whether every `pipe()` succeeded. -/
def pipeCreate (os : OS) : Nat → Nat → List Event × Bool
  | 0, _ => ([], true)
  | rem + 1, i =>
    if os.pipe i then
      let r := pipeCreate os rem (i + 1)
      (Event.pipe i true :: r.1, r.2)
    else ([Event.pipe i false, Event.print "管道创建失败"], false)

/-- `execute_command` (lines 289-471), in the process described by `os`. -/
def execute_command (os : OS) (g : Globals) (cmd : Str) : Run :=
  let g1 : Globals := { g with command_running := true }
  let background := (stripBackground cmd).1
  let command := (stripBackground cmd).2
  let commands := splitStages command
  let n := commands.length
  match pipeCreate os (n - 1) 0 with
  | (ev1, false) => { trace := emit g1 ev1, outcome := Outcome.returned g1 }
  | (ev1, true) =>
    match forkLoop os background commands n n 0 0 (List.replicate n 0) with
    | (ev2, LoopEnd.forkFailed) =>
      { trace := emit g1 (ev1 ++ ev2), outcome := Outcome.returned g1 }
    | (ev2, LoopEnd.childExited code) =>
      { trace := emit g1 (ev1 ++ ev2), outcome := Outcome.exited code }
    | (ev2, LoopEnd.childReplaced argv) =>
      { trace := emit g1 (ev1 ++ ev2), outcome := Outcome.replaced argv }
    | (ev2, LoopEnd.done pids) =>
      let ev3 := closeAll (n - 1)
      if !background then
        let ev4 := (List.range n).map (fun i => Event.waitpid (pids.getD i 0))
        { trace := emit g1 (ev1 ++ ev2 ++ ev3 ++ ev4)
          outcome := Outcome.returned { g1 with command_running := false } }
      else
        let ev4 := [Event.printPid (pids.getD 0 0) "Running in background"]
        let g2 : Globals :=
          { g1 with background_processes := g1.background_processes ++ [pids.getD 0 0] }
        { trace := emit g1 (ev1 ++ ev2 ++ ev3 ++ ev4)
          outcome := Outcome.returned { g2 with command_running := false } }

/-! ## Built-ins and the read-eval loop -/

/-- The search loop of `fg` (lines 173-180): erase the first entry equal to
`pid`, or `none` when `pid_exists` stays false. -/
def eraseFirst : List Int → Int → Option (List Int)
  | [], _ => none
  | x :: xs, pid => if x = pid then some xs else (eraseFirst xs pid).map (x :: ·)

/-- Lines 149-170 and 201-222: the PID an `fg` or `bg` line designates, or the
error message. -/
def resolvePid (name : String) (g : Globals) (args : List Str) : Except String Int :=
  if args.length < 2 then
    match g.background_processes.getLast? with
    | none => Except.error (name ++ ": no current job")
    | some pid => Except.ok pid
  else
    match parseInt (args.getD 1 []) with
    | none => Except.error "Invalid PID"
    | some pid => Except.ok pid

/-- The `fg` built-in (lines 146-196). -/
def fg_builtin (g : Globals) (args : List Str) : Run :=
  let g1 : Globals := { g with command_running := true }
  match resolvePid "fg" g1 args with
  | Except.error msg =>
    { trace := emit g1 [Event.print msg]
      outcome := Outcome.returned { g1 with command_running := false } }
  | Except.ok pid =>
    match eraseFirst g1.background_processes pid with
    | none =>
      { trace := emit g1 [Event.print "fg: job not found"]
        outcome := Outcome.returned { g1 with command_running := false } }
    | some table =>
      let g2 : Globals := { g1 with background_processes := table, fg_pid := pid }
      { trace := emit g2 [Event.waitpid pid]
        outcome := Outcome.returned { g2 with fg_pid := 0 } }

/-- The `bg` built-in (lines 198-247). -/
def bg_builtin (g : Globals) (args : List Str) : Run :=
  let g1 : Globals := { g with command_running := true }
  match resolvePid "bg" g1 args with
  | Except.error msg =>
    { trace := emit g1 [Event.print msg]
      outcome := Outcome.returned { g1 with command_running := false } }
  | Except.ok pid =>
    if g1.background_processes.contains pid then
      { trace := emit g1 [Event.kill pid "SIGCONT", Event.printPid pid "Running in background"]
        outcome := Outcome.returned { g1 with command_running := false } }
    else
      { trace := emit g1 [Event.print "bg: job not found"]
        outcome := Outcome.returned { g1 with command_running := false } }

/-- The `wait` built-in (lines 124-144). -/
def wait_builtin (g : Globals) : Run :=
  let g1 : Globals := { g with command_running := true }
  let waits := g1.background_processes.flatMap
    (fun pid => [Event.printPid pid "WAITING FOR PID", Event.waitpid pid])
  { trace := emit g1 ([Event.sigaction "SIG_IGN"] ++ waits) ++
      emit { g1 with background_processes := [] } [Event.sigaction "restore"]
    outcome := Outcome.returned { g1 with background_processes := [], command_running := false } }

/-- The `pwd` built-in (lines 93-104). -/
def pwd_builtin (os : OS) (g : Globals) : Run :=
  let g1 : Globals := { g with command_running := true }
  { trace := emit g1 [Event.getcwd os.getcwd,
      Event.print (if os.getcwd then "cwd" else "获取当前目录失败")]
    outcome := Outcome.returned { g1 with command_running := false } }

/-- The `cd` built-in (lines 106-122).  `os.home` is `getenv("HOME")`.  When
it is the null pointer the condition of line 111 holds without any call of
`chdir`, and line 112 builds `std::string(home)` from the null pointer: the
exception is not caught and the shell is terminated, with `command_running`
never reset. -/
def cd_builtin (os : OS) (g : Globals) (args : List Str) : Run :=
  let g1 : Globals := { g with command_running := true }
  if args.length < 2 then
    match os.home with
    | none => { trace := [], outcome := Outcome.aborted }
    | some home =>
      if os.chdir home then
        { trace := emit g1 [Event.chdir home true]
          outcome := Outcome.returned { g1 with command_running := false } }
      else
        { trace := emit g1 [Event.chdir home false, Event.print "Failed to change directory"]
          outcome := Outcome.returned { g1 with command_running := false } }
  else
    if os.chdir (c_str (args.getD 1 [])) then
      { trace := emit g1 [Event.chdir (c_str (args.getD 1 [])) true]
        outcome := Outcome.returned { g1 with command_running := false } }
    else
      { trace := emit g1 [Event.chdir (c_str (args.getD 1 [])) false,
          Event.print "Failed to change directory"]
        outcome := Outcome.returned { g1 with command_running := false } }

/-- The `exit` built-in (lines 74-91). -/
def exit_builtin (g : Globals) (args : List Str) : Run :=
  if args.length ≤ 1 then { trace := [], outcome := Outcome.exited 0 }
  else
    match parseInt (args.getD 1 []) with
    | none => { trace := emit g [Event.print "Invalid exit code"], outcome := Outcome.returned g }
    | some code => { trace := [], outcome := Outcome.exited code }

/-- One iteration of the `while (true)` loop of `main` (lines 58-249) on the
line `cmd`. -/
def main_iteration (os : OS) (g : Globals) (cmd : Str) : Run :=
  let args := splitWords cmd
  match args with
  | [] => { trace := [], outcome := Outcome.returned g }
  | a0 :: _ =>
    if a0 = ['e', 'x', 'i', 't'] then exit_builtin g args
    else if a0 = ['p', 'w', 'd'] then pwd_builtin os g
    else if a0 = ['c', 'd'] then cd_builtin os g args
    else if a0 = ['w', 'a', 'i', 't'] then wait_builtin g
    else if a0 = ['f', 'g'] then fg_builtin g args
    else if a0 = ['b', 'g'] then bg_builtin g args
    else execute_command os g cmd

/-! ## Concrete processes and lines used to evaluate the model -/

/-- A shell process for which every system call succeeds; `fork` returns to it
the PID `100 + i` of the child created at iteration `i`. -/
def shellOS : OS :=
  { pipe := fun _ => true
    fork := fun i => 100 + (i : Int)
    openIn := fun _ => true
    openOut := fun _ _ => true
    dup2 := true
    execvp := fun _ => true
    getcwd := true
    home := none
    chdir := fun _ => true }

/-- The child created at iteration `j` of the loop of `shellOS`: the earlier
calls of `fork` happened in its parent, the call of iteration `j` returned `0`
to it, and its own later calls of `fork` return the PIDs `200 + i`. -/
def childOS (j : Nat) : OS :=
  { shellOS with
    fork := fun i => if i < j then 100 + (i : Int) else if i = j then 0 else 200 + (i : Int) }

/-- A shell process whose first call of `pipe` fails. -/
def pipeFailOS : OS := { shellOS with pipe := fun _ => false }

/-- A shell process whose first call of `fork` fails. -/
def forkFailOS : OS := { shellOS with fork := fun _ => -1 }

/-- The variables of a shell at its first prompt. -/
def atPrompt : Globals := { command_running := false, background_processes := [], fg_pid := 0 }

/-- The line `ls | wc`. -/
def line_ls_wc : Str := ['l', 's', ' ', '|', ' ', 'w', 'c']

/-- The line `ls` . -/
def line_ls : Str := ['l', 's']

/-- The line `ls & ` (a space after the ampersand). -/
def line_ls_amp_space : Str := ['l', 's', ' ', '&', ' ']

/-- The line `sleep 9 &`. -/
def line_sleep_amp : Str := ['s', 'l', 'e', 'e', 'p', ' ', '9', ' ', '&']

/-- The line `cat < a > b`. -/
def line_in_out : Str := ['c', 'a', 't', ' ', '<', ' ', 'a', ' ', '>', ' ', 'b']

/-- The line `cat > b < a`. -/
def line_out_in : Str := ['c', 'a', 't', ' ', '>', ' ', 'b', ' ', '<', ' ', 'a']

/-- The line `|`: two stages, both empty. -/
def line_bar : Str := ['|']

/-- The line `| &`: two empty stages, in the background. -/
def line_bar_amp : Str := ['|', ' ', '&']

/-- The line `fg`. -/
def line_fg : Str := ['f', 'g']

/-! ## Facts about the string primitives -/

theorem ffno_none (s set : Str) :
    find_first_not_of s set = none ↔ ∀ c ∈ s, set.contains c = true := by
  induction s with
  | nil => simp [find_first_not_of]
  | cons x xs ih =>
    unfold find_first_not_of
    by_cases hx : set.contains x = true
    · simp only [hx, if_true, Option.map_eq_none', ih, List.forall_mem_cons, true_and]
    · rw [if_neg hx]
      simp only [List.forall_mem_cons, false_iff, reduceCtorEq]
      exact fun h => hx h.1

theorem ffno_some (s set : Str) (i : Nat) (h : find_first_not_of s set = some i) :
    (∃ c, s[i]? = some c ∧ set.contains c = false) ∧
      ∀ k c, k < i → s[k]? = some c → set.contains c = true := by
  induction s generalizing i with
  | nil => simp [find_first_not_of] at h
  | cons x xs ih =>
    unfold find_first_not_of at h
    by_cases hx : set.contains x = true
    · simp only [hx, if_true, Option.map_eq_some'] at h
      obtain ⟨i', hi', rfl⟩ := h
      obtain ⟨⟨c, hc, hcs⟩, hlt⟩ := ih i' hi'
      refine ⟨⟨c, by simpa using hc, hcs⟩, ?_⟩
      intro k c' hk hkc
      cases k with
      | zero => simp at hkc; subst hkc; exact hx
      | succ k => exact hlt k c' (by omega) (by simpa using hkc)
    · simp only [hx] at h
      simp at h
      subst h
      refine ⟨⟨x, by simp, by simpa using hx⟩, ?_⟩
      intro k c hk
      omega

theorem flno_none (s set : Str) :
    find_last_not_of s set = none ↔ ∀ c ∈ s, set.contains c = true := by
  induction s with
  | nil => simp [find_last_not_of]
  | cons x xs ih =>
    unfold find_last_not_of
    cases hrec : find_last_not_of xs set with
    | some j =>
      simp only [false_iff, reduceCtorEq]
      intro hall
      have : find_last_not_of xs set = none :=
        ih.mpr (fun c hc => hall c (List.mem_cons_of_mem _ hc))
      rw [this] at hrec
      cases hrec
    | none =>
      have hxs := ih.mp hrec
      by_cases hx : set.contains x = true
      · simp only [hx, if_true, true_iff]
        intro c hc
        rcases List.mem_cons.mp hc with rfl | hc
        · exact hx
        · exact hxs c hc
      · simp only [hx]
        simp only [Bool.false_eq_true, if_false, false_iff, reduceCtorEq]
        intro hall
        exact hx (hall x (List.mem_cons_self _ _))

theorem flno_some (s set : Str) (j : Nat) (h : find_last_not_of s set = some j) :
    ∃ c, s[j]? = some c ∧ set.contains c = false := by
  induction s generalizing j with
  | nil => simp [find_last_not_of] at h
  | cons x xs ih =>
    unfold find_last_not_of at h
    cases hrec : find_last_not_of xs set with
    | some j' =>
      rw [hrec] at h
      simp at h
      subst h
      obtain ⟨c, hc, hcs⟩ := ih j' hrec
      exact ⟨c, by simpa using hc, hcs⟩
    | none =>
      rw [hrec] at h
      by_cases hx : set.contains x = true
      · rw [if_pos hx] at h
        cases h
      · rw [if_neg hx] at h
        cases h
        exact ⟨x, by simp, by simpa using hx⟩

theorem flno_last (s set : Str) (c : Char) (hl : s.getLast? = some c)
    (hc : set.contains c = false) : find_last_not_of s set = some (s.length - 1) := by
  induction s with
  | nil => simp at hl
  | cons x xs ih =>
    unfold find_last_not_of
    cases xs with
    | nil =>
      simp at hl
      subst hl
      simp only [find_last_not_of, hc]
      rfl
    | cons y ys =>
      rw [List.getLast?_cons_cons] at hl
      rw [ih hl]
      simp

theorem trim_nil : trim [] = [] := by
  simp [trim, find_first_not_of]

theorem trim_cases (s : Str) :
    (trim s = [] ∧ ∀ c ∈ s, whitespace.contains c = true) ∨
      ∃ i j, find_first_not_of s whitespace = some i ∧ find_last_not_of s whitespace = some j ∧
        i ≤ j ∧ j < s.length ∧ trim s = (s.drop i).take (j - i + 1) := by
  unfold trim
  cases hi : find_first_not_of s whitespace with
  | none => exact Or.inl ⟨rfl, (ffno_none s whitespace).mp hi⟩
  | some i =>
    cases hj : find_last_not_of s whitespace with
    | none =>
      have hall := (flno_none s whitespace).mp hj
      have hnone := (ffno_none s whitespace).mpr hall
      rw [hnone] at hi
      cases hi
    | some j =>
      right
      obtain ⟨c, hc, hcs⟩ := flno_some s whitespace j hj
      obtain ⟨-, hlt⟩ := ffno_some s whitespace i hi
      have hjl : j < s.length := by
        rcases List.getElem?_eq_some.mp hc with ⟨h, -⟩
        exact h
      have hij : i ≤ j := by
        by_contra hcon
        have := hlt j c (by omega) hc
        rw [this] at hcs
        cases hcs
      exact ⟨i, j, rfl, rfl, hij, hjl, rfl⟩

theorem trim_head (s : Str) (c : Char) (h : (trim s).head? = some c) :
    whitespace.contains c = false := by
  rcases trim_cases s with ⟨hnil, -⟩ | ⟨i, j, hi, hj, hij, hjl, heq⟩
  · rw [hnil] at h
    simp at h
  · rw [heq, List.head?_take] at h
    simp only [Nat.add_one_ne_zero, if_false, List.head?_drop] at h
    obtain ⟨⟨c', hc', hcs⟩, -⟩ := ffno_some s whitespace i hi
    rw [hc'] at h
    cases h
    exact hcs

theorem trim_last (s : Str) (c : Char) (h : (trim s).getLast? = some c) :
    whitespace.contains c = false := by
  rcases trim_cases s with ⟨hnil, -⟩ | ⟨i, j, hi, hj, hij, hjl, heq⟩
  · rw [hnil] at h
    simp at h
  · rw [heq, List.getLast?_eq_getElem?] at h
    have hlen : ((s.drop i).take (j - i + 1)).length = j - i + 1 := by
      rw [List.length_take, List.length_drop]
      omega
    rw [hlen, List.getElem?_take_of_lt (by omega), List.getElem?_drop] at h
    have hidx : i + (j - i + 1 - 1) = j := by omega
    rw [hidx] at h
    obtain ⟨c', hc', hcs⟩ := flno_some s whitespace j hj
    rw [hc'] at h
    cases h
    exact hcs

theorem trim_eq_self (s : Str) (hne : s ≠ [])
    (hh : ∀ c, s.head? = some c → whitespace.contains c = false)
    (hl : ∀ c, s.getLast? = some c → whitespace.contains c = false) : trim s = s := by
  cases s with
  | nil => exact absurd rfl hne
  | cons x xs =>
    have hx : whitespace.contains x = false := hh x rfl
    have hfirst : find_first_not_of (x :: xs) whitespace = some 0 := by
      simp only [find_first_not_of, hx]
      rfl
    have hlast : find_last_not_of (x :: xs) whitespace = some ((x :: xs).length - 1) :=
      flno_last (x :: xs) whitespace ((x :: xs).getLast hne)
        (List.getLast?_eq_getLast _ hne) (hl _ (List.getLast?_eq_getLast _ hne))
    unfold trim
    rw [hfirst, hlast]
    simp [substr]

theorem trim_all_ws (s : Str) (h : ∀ c ∈ s, whitespace.contains c = true) : trim s = [] := by
  unfold trim
  rw [(ffno_none s whitespace).mpr h]

theorem trim_eq_nil (s : Str) (h : trim s = []) : ∀ c ∈ s, whitespace.contains c = true := by
  rcases trim_cases s with ⟨-, hall⟩ | ⟨i, j, hi, hj, hij, hjl, heq⟩
  · exact hall
  · have hlen : ((s.drop i).take (j - i + 1)).length = j - i + 1 := by
      rw [List.length_take, List.length_drop]
      omega
    rw [← heq, h] at hlen
    simp at hlen

theorem trim_idem (s : Str) : trim (trim s) = trim s := by
  by_cases hne : trim s = []
  · rw [hne, trim_nil]
  · exact trim_eq_self (trim s) hne (trim_head s) (trim_last s)

/-! ## Facts about `find` and `split` -/

theorem startsWith_length (s d : Str) (h : startsWith s d = true) : d.length ≤ s.length := by
  induction d generalizing s with
  | nil => simp
  | cons x xs ih =>
    cases s with
    | nil => simp [startsWith] at h
    | cons c cs =>
      simp only [startsWith, Bool.and_eq_true] at h
      have := ih cs h.2
      simp only [List.length_cons]
      omega

theorem startsWith_append (d rest : Str) : startsWith (d ++ rest) d = true := by
  induction d with
  | nil => cases rest <;> rfl
  | cons x xs ih => simp [startsWith, ih]

theorem find_bound (s d : Str) (pos : Nat) (h : find s d = some pos) :
    pos + d.length ≤ s.length := by
  induction s generalizing pos with
  | nil =>
    unfold find at h
    by_cases hs : startsWith [] d = true
    · rw [if_pos hs] at h
      cases h
      have := startsWith_length [] d hs
      omega
    · rw [if_neg hs] at h
      cases h
  | cons c cs ih =>
    unfold find at h
    by_cases hs : startsWith (c :: cs) d = true
    · rw [if_pos hs] at h
      cases h
      have := startsWith_length (c :: cs) d hs
      omega
    · rw [if_neg hs] at h
      simp only [Option.map_eq_some'] at h
      obtain ⟨p, hp, rfl⟩ := h
      have := ih p hp
      simp only [List.length_cons]
      omega

theorem find_append_self (d rest : Str) : find (d ++ rest) d = some 0 := by
  have h := startsWith_append d rest
  cases hs : d ++ rest with
  | nil =>
    rw [hs] at h
    simp [find, h]
  | cons c cs =>
    rw [hs] at h
    simp [find, h]

theorem find_nil (d : Str) (hd : d ≠ []) : find [] d = none := by
  cases d with
  | nil => exact absurd rfl hd
  | cons x xs => simp [find, startsWith]

/-- With a non-empty delimiter the loop of `split` ends within `s.length + 1`
iterations, and every token it adds is a non-empty `trim` result. -/
theorem splitLoop_spec (P : Str → Prop) (d : Str) (hd : d ≠ [])
    (hP : ∀ x, trim x ≠ [] → P (trim x)) :
    ∀ (fuel : Nat) (s : Str) (res : List Str), s.length < fuel → (∀ t ∈ res, P t) →
      ∃ toks, splitLoop d fuel s res = some toks ∧ ∀ t ∈ toks, P t := by
  intro fuel
  induction fuel with
  | zero => intro s res h; omega
  | succ fuel ih =>
    intro s res hlen hres
    have hpush : ∀ x : Str, ∀ t ∈ (if (trim x).isEmpty then res else res ++ [trim x]), P t := by
      intro x t ht
      by_cases hx : (trim x).isEmpty = true
      · rw [if_pos hx] at ht
        exact hres t ht
      · rw [if_neg hx] at ht
        rcases List.mem_append.mp ht with ht | ht
        · exact hres t ht
        · have : t = trim x := by simpa using ht
          subst this
          exact hP x (by simpa using hx)
    unfold splitLoop
    cases hf : find s d with
    | none => exact ⟨_, rfl, hpush s⟩
    | some pos =>
      have hb := find_bound s d pos hf
      have hdl : 0 < d.length := List.length_pos.mpr hd
      apply ih
      · rw [List.length_drop]
        omega
      · exact hpush (substr s 0 pos)

/-- The loop of `split(s, " ")` always ends: `splitWords` is its result. -/
theorem splitWords_total (s : Str) : split s [' '] = some (splitWords s) := by
  obtain ⟨toks, h, -⟩ := splitLoop_spec (fun _ => True) [' '] (by decide) (fun _ _ => trivial)
    ((trim s).length + 1) (trim s) [] (Nat.lt_succ_self _) (fun _ _ => trivial)
  unfold splitWords split
  rw [h]
  rfl

/-- With the empty delimiter the loop of `split` never ends. -/
theorem splitLoop_empty_delimiter (fuel : Nat) (s : Str) (res : List Str) :
    splitLoop [] fuel s res = none := by
  induction fuel generalizing s res with
  | zero => rfl
  | succ fuel ih =>
    unfold splitLoop
    have hf : find s [] = some 0 := by
      cases s <;> simp [find, startsWith]
    rw [hf]
    exact ih _ _

theorem rep_succ (k : Nat) (d : Str) :
    (List.replicate (k + 1) d).flatten = d ++ (List.replicate k d).flatten := by
  rw [List.replicate_succ, List.flatten_cons]

theorem rep_length (k : Nat) (d : Str) (hd : d ≠ []) :
    k ≤ (List.replicate k d).flatten.length := by
  induction k with
  | zero => simp
  | succ k ih =>
    rw [rep_succ, List.length_append]
    have : 0 < d.length := List.length_pos.mpr hd
    omega

theorem rep_head (k : Nat) (d : Str) (hd : d ≠ []) :
    (List.replicate (k + 1) d).flatten.head? = d.head? := by
  rw [rep_succ]
  cases d with
  | nil => exact absurd rfl hd
  | cons x xs => rfl

theorem rep_last (k : Nat) (d : Str) (hd : d ≠ []) :
    (List.replicate (k + 1) d).flatten.getLast? = d.getLast? := by
  induction k with
  | zero => simp
  | succ k ih =>
    rw [rep_succ, List.getLast?_append, ih]
    cases h : d.getLast? with
    | none => simp [List.getLast?_eq_none_iff] at h; exact absurd h hd
    | some c => rfl

theorem splitLoop_rep (d : Str) (hd : d ≠ []) :
    ∀ (k fuel : Nat) (res : List Str), k < fuel →
      splitLoop d fuel (List.replicate k d).flatten res = some res := by
  intro k
  induction k with
  | zero =>
    intro fuel res h
    cases fuel with
    | zero => omega
    | succ fuel =>
      simp only [List.replicate_zero, List.flatten_nil]
      unfold splitLoop
      rw [find_nil d hd]
      simp [trim_nil]
  | succ k ih =>
    intro fuel res h
    cases fuel with
    | zero => omega
    | succ fuel =>
      rw [rep_succ]
      unfold splitLoop
      rw [find_append_self]
      simp only [substr, List.drop_zero, List.take_zero, trim_nil, List.isEmpty_nil, if_true,
        Nat.zero_add, List.drop_left]
      exact ih fuel res (by omega)

/-! ## Facts about the stage splitting -/

theorem findChar_some (s : Str) (c : Char) (start pos : Nat)
    (h : findChar s c start = some pos) :
    start ≤ pos ∧ pos < s.length ∧
      (s.drop start).count c = (s.drop (pos + 1)).count c + 1 := by
  induction s generalizing start pos with
  | nil => simp [findChar] at h
  | cons x xs ih =>
    cases start with
    | zero =>
      unfold findChar at h
      by_cases hx : x = c
      · rw [if_pos hx] at h
        cases h
        subst hx
        simp
      · rw [if_neg hx] at h
        simp only [Option.map_eq_some'] at h
        obtain ⟨p, hp, rfl⟩ := h
        obtain ⟨-, h2, h3⟩ := ih 0 p hp
        refine ⟨by omega, by simp only [List.length_cons]; omega, ?_⟩
        simp only [List.drop_zero] at h3
        simp only [List.drop_zero, List.drop_succ_cons]
        rw [List.count_cons_of_ne (Ne.symm hx), h3]
    | succ start =>
      unfold findChar at h
      simp only [Option.map_eq_some'] at h
      obtain ⟨p, hp, rfl⟩ := h
      obtain ⟨h1, h2, h3⟩ := ih start p hp
      refine ⟨by omega, by simp only [List.length_cons]; omega, ?_⟩
      simpa only [List.drop_succ_cons] using h3

theorem findChar_none (s : Str) (c : Char) (start : Nat) (h : findChar s c start = none) :
    (s.drop start).count c = 0 := by
  induction s generalizing start with
  | nil => simp
  | cons x xs ih =>
    cases start with
    | zero =>
      unfold findChar at h
      by_cases hx : x = c
      · rw [if_pos hx] at h
        cases h
      · rw [if_neg hx] at h
        simp only [Option.map_eq_none'] at h
        have := ih 0 h
        simp only [List.drop_zero] at this
        simp only [List.drop_zero]
        rw [List.count_cons_of_ne (Ne.symm hx), this]
    | succ start =>
      unfold findChar at h
      simp only [Option.map_eq_none'] at h
      simpa only [List.drop_succ_cons] using ih start h

/-- The stage-splitting loop ends within its fuel and appends one stage more
than there are `|` characters from `start` on. -/
theorem pipeLoop_fuel (command : Str) :
    ∀ (fuel start : Nat) (commands : List Str), start ≤ command.length →
      command.length < fuel + start →
      ∃ segs, pipeLoop command fuel start commands = some (commands ++ segs) ∧
        segs.length = (command.drop start).count '|' + 1 := by
  intro fuel
  induction fuel with
  | zero => intro start commands h1 h2; omega
  | succ fuel ih =>
    intro start commands h1 h2
    unfold pipeLoop
    cases hf : findChar command '|' start with
    | none =>
      refine ⟨[command.drop start], rfl, ?_⟩
      rw [findChar_none command '|' start hf]
      rfl
    | some pos =>
      obtain ⟨hle, hlt, hcount⟩ := findChar_some command '|' start pos hf
      obtain ⟨segs, hsegs, hlen⟩ :=
        ih (pos + 1) (commands ++ [substr command start (pos - start)]) (by omega) (by omega)
      refine ⟨substr command start (pos - start) :: segs, ?_, ?_⟩
      · simp only [hsegs, List.append_assoc, List.singleton_append]
      · simp only [List.length_cons, hlen, hcount]

theorem splitStages_length (command : Str) :
    (splitStages command).length = command.count '|' + 1 := by
  obtain ⟨segs, hsegs, hlen⟩ :=
    pipeLoop_fuel command (command.length + 1) 0 [] (Nat.zero_le _) (by omega)
  unfold splitStages
  rw [hsegs]
  simpa using hlen

/-! ## The shell process: every `pipe` succeeds, every `fork` returns a child -/

theorem pipeCreate_ok (os : OS) (hpipe : ∀ i, os.pipe i = true) :
    ∀ (m i : Nat), pipeCreate os m i =
      ((List.range m).map (fun j => Event.pipe (i + j) true), true) := by
  intro m
  induction m with
  | zero => intro i; rfl
  | succ m ih =>
    intro i
    unfold pipeCreate
    rw [if_pos (hpipe i), ih (i + 1), List.range_succ_eq_map]
    simp only [List.map_cons, List.map_map, Nat.add_zero, Prod.mk.injEq, List.cons.injEq,
      true_and, and_true]
    apply List.map_congr_left
    intro j _
    simp only [Function.comp_apply]
    congr 1
    omega

theorem forkLoop_parent (os : OS) (background : Bool) (commands : List Str) (n : Nat)
    (hfork : ∀ i, 0 < os.fork i) :
    ∀ (rem i : Nat) (bg_pgid : Int) (pids : List Int), i + rem ≤ pids.length →
      ∃ pids', forkLoop os background commands n rem i bg_pgid pids =
          ((List.range rem).map (fun j => Event.fork (i + j) (os.fork (i + j))),
            LoopEnd.done pids') ∧
        pids'.length = pids.length ∧
        ∀ j, pids'.getD j 0 = if i ≤ j ∧ j < i + rem then os.fork j else pids.getD j 0 := by
  intro rem
  induction rem with
  | zero =>
    intro i bg_pgid pids _
    refine ⟨pids, rfl, rfl, ?_⟩
    intro j
    rw [if_neg (by omega)]
  | succ rem ih =>
    intro i bg_pgid pids hlen
    have hpos := hfork i
    obtain ⟨pids', hrun, hl, hget⟩ :=
      ih (i + 1) (if (background && i == 0) = true then os.fork i else bg_pgid)
        (pids.set i (os.fork i)) (by rw [List.length_set]; omega)
    refine ⟨pids', ?_, by rw [hl, List.length_set], ?_⟩
    · unfold forkLoop
      simp only []
      rw [if_neg (by omega), if_neg (by omega), hrun, List.range_succ_eq_map]
      simp only [List.map_cons, List.map_map, Nat.add_zero, Prod.mk.injEq, List.cons.injEq,
        true_and, and_true]
      apply List.map_congr_left
      intro j _
      simp only [Function.comp_apply]
      have : i + 1 + j = i + (j + 1) := by omega
      rw [this]
    · intro j
      rw [hget j]
      by_cases h1 : i + 1 ≤ j ∧ j < i + 1 + rem
      · rw [if_pos h1, if_pos (by omega)]
      · rw [if_neg h1]
        by_cases h2 : j = i
        · subst h2
          rw [if_pos (by omega), List.getD_eq_getElem?_getD, List.getElem?_set_self (by omega)]
          rfl
        · rw [if_neg (by omega), List.getD_eq_getElem?_getD, List.getD_eq_getElem?_getD,
            List.getElem?_set_ne (by omega)]

/-- C1: for every input `s` and every non-empty delimiter `d`, `split(s, d)`
returns, and every element of the result is a non-empty string that equals
its own `trim` and neither starts nor ends with one of the six whitespace
characters; so no delimiter, wherever it stands, produces an empty token. -/
theorem split_tokens_trimmed (s d : Str) (hd : d ≠ []) :
    ∃ toks, split s d = some toks ∧
      ∀ t ∈ toks, t ≠ [] ∧ trim t = t ∧
        (∀ c, t.head? = some c → c ∉ whitespace) ∧
        (∀ c, t.getLast? = some c → c ∉ whitespace) := by
  unfold split
  apply splitLoop_spec _ d hd
  · intro x hx
    refine ⟨hx, trim_idem x, ?_, ?_⟩
    · intro c hc
      simpa using trim_head x c hc
    · intro c hc
      simpa using trim_last x c hc
  · exact Nat.lt_succ_self _
  · intro t ht
    cases ht

/-- The claim C1 at the line `  ls  <tab>-l ` split on a space. -/
theorem split_tokens_trimmed_witness :
    [' '] ≠ [] ∧ ∃ toks, split [' ', ' ', 'l', 's', ' ', ' ', '\t', '-', 'l', ' '] [' '] = some toks ∧
      ∀ t ∈ toks, t ≠ [] ∧ trim t = t ∧
        (∀ c, t.head? = some c → c ∉ whitespace) ∧
        (∀ c, t.getLast? = some c → c ∉ whitespace) :=
  ⟨by decide, split_tokens_trimmed _ _ (by decide)⟩

/-- C8, counterexample: the delimiter `" a"` starts with a space; `split`
trims the all-delimiter input `" a"` to `"a"` before searching, finds no
delimiter in it and returns the token `"a"`. -/
theorem delimiter_with_space_yields_token :
    [' ', 'a'] ≠ [] ∧
      split (List.replicate 1 [' ', 'a']).flatten [' ', 'a'] = some [['a']] ∧
      split (List.replicate 1 [' ', 'a']).flatten [' ', 'a'] ≠ some [] := by
  decide

/-- C8, amended: for every non-empty delimiter `d` and every `k` such that
`k = 0` (the empty input), or `d` has no whitespace at either end
(`trim d = d`), or `d` consists of whitespace only (`trim d = ""`), `split`
applied to `k` consecutive copies of `d` returns the empty sequence. -/
theorem split_all_delimiters (d : Str) (k : Nat) (hd : d ≠ [])
    (hws : k = 0 ∨ trim d = d ∨ trim d = []) :
    split (List.replicate k d).flatten d = some [] := by
  unfold split
  rcases hws with hk | hself | hnil
  · subst hk
    simp only [List.replicate_zero, List.flatten_nil, trim_nil]
    exact splitLoop_rep d hd 0 _ [] (by simp)
  · have htrim : trim (List.replicate k d).flatten = (List.replicate k d).flatten := by
      cases k with
      | zero => simp [trim_nil]
      | succ k =>
        apply trim_eq_self
        · rw [rep_succ]
          simp [hd]
        · intro c hc
          rw [rep_head k d hd] at hc
          rw [← hself] at hc
          exact trim_head d c hc
        · intro c hc
          rw [rep_last k d hd] at hc
          rw [← hself] at hc
          exact trim_last d c hc
    simp only [htrim]
    exact splitLoop_rep d hd k _ [] (Nat.lt_succ_of_le (rep_length k d hd))
  · have hall := trim_eq_nil d hnil
    have htrim : trim (List.replicate k d).flatten = [] := by
      apply trim_all_ws
      intro c hc
      obtain ⟨l, hl, hcl⟩ := List.mem_flatten.mp hc
      obtain ⟨-, rfl⟩ := List.mem_replicate.mp hl
      exact hall c hcl
    simp only [htrim]
    exact splitLoop_rep d hd 0 _ [] (by simp)

/-- The amended claim C8 at three copies of the delimiter `ab`. -/
theorem split_all_delimiters_witness :
    ['a', 'b'] ≠ [] ∧ (3 = 0 ∨ trim ['a', 'b'] = ['a', 'b'] ∨ trim ['a', 'b'] = []) ∧
      split (List.replicate 3 ['a', 'b']).flatten ['a', 'b'] = some [] :=
  ⟨by decide, by decide, split_all_delimiters _ 3 (by decide) (by decide)⟩

theorem trim_length_lt (s : Str) (h : trim s ≠ s) : (trim s).length < s.length := by
  rcases trim_cases s with ⟨hnil, -⟩ | ⟨i, j, -, -, hij, hjl, heq⟩
  · cases s with
    | nil => exact absurd trim_nil h
    | cons x xs =>
      rw [hnil]
      simp
  · by_contra hnot
    have hlen : ((s.drop i).take (j - i + 1)).length = j - i + 1 := by
      rw [List.length_take, List.length_drop]
      omega
    rw [heq, hlen] at hnot
    have hi : i = 0 := by omega
    have hj : j - i + 1 = s.length := by omega
    apply h
    rw [heq, hj, hi, List.drop_zero, List.take_length]

/-- The condition of the amended claim C8 is needed: already for one copy of
the delimiter, `split` returns the empty sequence only if the delimiter has no
whitespace at either end or consists of whitespace. -/
theorem all_delimiter_input_exact (d : Str)
    (h : split (List.replicate 1 d).flatten d = some []) : trim d = d ∨ trim d = [] := by
  by_cases hnil : trim d = []
  · exact Or.inr hnil
  by_cases hself : trim d = d
  · exact Or.inl hself
  exfalso
  have hflat : (List.replicate 1 d).flatten = d := by simp
  rw [hflat] at h
  have hlt := trim_length_lt d hself
  have hfind : find (trim d) d = none := by
    cases hf : find (trim d) d with
    | none => rfl
    | some pos =>
      have := find_bound (trim d) d pos hf
      omega
  unfold split at h
  simp only [] at h
  unfold splitLoop at h
  rw [hfind] at h
  simp only [trim_idem] at h
  have hne : (trim d).isEmpty = false := by
    cases ht : trim d with
    | nil => exact absurd ht hnil
    | cons x xs => rfl
  rw [hne] at h
  simp at h

theorem emit_fst (g : Globals) (evs : List Event) : (emit g evs).map Prod.fst = evs := by
  unfold emit
  rw [List.map_map]
  exact List.map_id _

theorem countP_pipes (m : Nat) :
    ((List.range m).map (fun i => Event.pipe i true)).countP Event.isPipe = m ∧
      ((List.range m).map (fun i => Event.pipe i true)).countP Event.isFork = 0 := by
  constructor
  · rw [List.countP_eq_length.mpr]
    · simp
    · intro e he
      obtain ⟨i, -, rfl⟩ := List.mem_map.mp he
      rfl
  · rw [List.countP_eq_zero]
    intro e he
    obtain ⟨i, -, rfl⟩ := List.mem_map.mp he
    simp [Event.isFork]

theorem countP_forks (os : OS) (hfork : ∀ i, 0 < os.fork i) (m : Nat) :
    ((List.range m).map (fun i => Event.fork i (os.fork i))).countP Event.isPipe = 0 ∧
      ((List.range m).map (fun i => Event.fork i (os.fork i))).countP Event.isFork = m := by
  constructor
  · rw [List.countP_eq_zero]
    intro e he
    obtain ⟨i, -, rfl⟩ := List.mem_map.mp he
    simp [Event.isPipe]
  · rw [List.countP_eq_length.mpr]
    · simp
    · intro e he
      obtain ⟨i, -, rfl⟩ := List.mem_map.mp he
      simp [Event.isFork, hfork i]

theorem countP_closeAll (m : Nat) :
    (closeAll m).countP Event.isPipe = 0 ∧ (closeAll m).countP Event.isFork = 0 := by
  constructor <;>
  · rw [List.countP_eq_zero]
    intro e he
    unfold closeAll at he
    obtain ⟨i, -, hi⟩ := List.mem_flatMap.mp he
    simp only [List.mem_cons, List.mem_singleton, List.not_mem_nil, or_false] at hi
    rcases hi with rfl | rfl <;> simp [Event.isPipe, Event.isFork]

theorem closeAll_succ (m : Nat) :
    closeAll (m + 1) = closeAll m ++ [Event.close m 0, Event.close m 1] := by
  unfold closeAll
  rw [List.range_succ, List.flatMap_append]
  simp

theorem countP_close_closeAll (m : Nat) : (closeAll m).countP Event.isClose = 2 * m := by
  induction m with
  | zero => rfl
  | succ m ih =>
    rw [closeAll_succ, List.countP_append, ih]
    simp [Event.isClose]
    omega

/-- Both ends of pipe `i` are closed, one after the other, inside `closeAll`. -/
theorem closeAll_split (m i : Nat) (hi : i < m) :
    ∃ a b, closeAll m = a ++ Event.close i 0 :: Event.close i 1 :: b ∧
      a.countP Event.isFork = 0 ∧ b.countP Event.isFork = 0 := by
  induction m with
  | zero => omega
  | succ m ih =>
    rw [closeAll_succ]
    by_cases h : i < m
    · obtain ⟨a, b, hab, ha, hb⟩ := ih h
      refine ⟨a, b ++ [Event.close m 0, Event.close m 1], ?_, ha, ?_⟩
      · rw [hab]
        simp
      · rw [List.countP_append, hb]
        simp [Event.isFork]
    · have him : i = m := by omega
      subst him
      exact ⟨closeAll i, [], by simp, (countP_closeAll i).2, rfl⟩

/-- The run of `execute_command` in the shell process, in closed form: every
`pipe` succeeds and every `fork` returns the PID of the new child. -/
theorem execute_command_shell (os : OS) (g : Globals) (cmd : Str)
    (hpipe : ∀ i, os.pipe i = true) (hfork : ∀ i, 0 < os.fork i) :
    execute_command os g cmd =
      { trace := emit { g with command_running := true }
          ((List.range ((stripBackground cmd).2.count '|')).map (fun i => Event.pipe i true) ++
            (List.range ((stripBackground cmd).2.count '|' + 1)).map
              (fun i => Event.fork i (os.fork i)) ++
            closeAll ((stripBackground cmd).2.count '|') ++
            (if (stripBackground cmd).1 = true then
              [Event.printPid (os.fork 0) "Running in background"]
            else (List.range ((stripBackground cmd).2.count '|' + 1)).map
              (fun i => Event.waitpid (os.fork i))))
        outcome := Outcome.returned
          (if (stripBackground cmd).1 = true then
            { command_running := false
              background_processes := g.background_processes ++ [os.fork 0]
              fg_pid := g.fg_pid }
          else { g with command_running := false }) } := by
  have hn := splitStages_length (stripBackground cmd).2
  generalize (stripBackground cmd).2.count '|' = k at hn ⊢
  obtain ⟨pids', hloop, hl, hget⟩ :=
    forkLoop_parent os (stripBackground cmd).1 (splitStages (stripBackground cmd).2) (k + 1)
      hfork (k + 1) 0 0 (List.replicate (k + 1) 0) (by simp)
  unfold execute_command
  simp only [hn, Nat.add_sub_cancel]
  rw [pipeCreate_ok os hpipe k 0, hloop]
  simp only [Nat.zero_add]
  by_cases hb : (stripBackground cmd).1 = true
  · simp only [hb, Bool.not_true, Bool.false_eq_true, if_false, if_true]
    rw [hget 0, if_pos (by omega)]
  · simp only [hb, Bool.not_false, if_true, if_false]
    have hw : (List.range (k + 1)).map (fun i => Event.waitpid (pids'.getD i 0)) =
        (List.range (k + 1)).map (fun i => Event.waitpid (os.fork i)) := by
      apply List.map_congr_left
      intro i hi
      have hi' : i < k + 1 := List.mem_range.mp hi
      rw [hget i, if_pos (by omega)]
    rw [hw]
    simp

/-- C2: let `command` be the line after the removal of the trailing `&` and `k`
its number of `|` characters.  The line is split into `k + 1` stages, and in
the shell process, when every `pipe` succeeds and every `fork` returns a child
PID, `execute_command` performs in this order: the `k` calls of `pipe`, the
`k + 1` calls of `fork`, `close` on end 0 and end 1 of each of the pipes
`0, ..., k - 1`, and then only the waits (foreground) or the background
notice.  So `k` pipes are allocated, `k + 1` children are created (one child
when there is no `|`), there are `2 * k` calls of `close`, and both ends of
every pipe are closed after all the `k + 1` calls of `fork`. -/
theorem pipeline_shape (os : OS) (g : Globals) (cmd : Str) (_hcmd : cmd ≠ [])
    (hpipe : ∀ i, os.pipe i = true) (hfork : ∀ i, 0 < os.fork i) :
    (splitStages (stripBackground cmd).2).length = (stripBackground cmd).2.count '|' + 1 ∧
    (∃ tail, (execute_command os g cmd).trace.map Prod.fst =
        (List.range ((stripBackground cmd).2.count '|')).map (fun i => Event.pipe i true) ++
        (List.range ((stripBackground cmd).2.count '|' + 1)).map
          (fun i => Event.fork i (os.fork i)) ++
        (List.range ((stripBackground cmd).2.count '|')).flatMap
          (fun i => [Event.close i 0, Event.close i 1]) ++ tail ∧
      (tail = (List.range ((stripBackground cmd).2.count '|' + 1)).map
          (fun i => Event.waitpid (os.fork i)) ∨
        tail = [Event.printPid (os.fork 0) "Running in background"])) ∧
    ((execute_command os g cmd).trace.map Prod.fst).countP Event.isPipe =
      (stripBackground cmd).2.count '|' ∧
    ((execute_command os g cmd).trace.map Prod.fst).countP Event.isFork =
      (stripBackground cmd).2.count '|' + 1 ∧
    ((execute_command os g cmd).trace.map Prod.fst).countP Event.isClose =
      2 * (stripBackground cmd).2.count '|' ∧
    (∀ i, i < (stripBackground cmd).2.count '|' →
      ∃ pre post, (execute_command os g cmd).trace.map Prod.fst =
          pre ++ Event.close i 0 :: Event.close i 1 :: post ∧
        pre.countP Event.isFork = (stripBackground cmd).2.count '|' + 1 ∧
        post.countP Event.isFork = 0) ∧
    ((stripBackground cmd).2.count '|' = 0 →
      ((execute_command os g cmd).trace.map Prod.fst).countP Event.isFork = 1) := by
  have hn := splitStages_length (stripBackground cmd).2
  have hrun := execute_command_shell os g cmd hpipe hfork
  generalize (stripBackground cmd).2.count '|' = k at hn hrun ⊢
  have hshape : ∃ tail, (execute_command os g cmd).trace.map Prod.fst =
        (List.range k).map (fun i => Event.pipe i true) ++
        (List.range (k + 1)).map (fun i => Event.fork i (os.fork i)) ++
        closeAll k ++ tail ∧
      (tail = (List.range (k + 1)).map (fun i => Event.waitpid (os.fork i)) ∨
        tail = [Event.printPid (os.fork 0) "Running in background"]) := by
    rw [hrun]
    simp only [emit_fst]
    by_cases hb : (stripBackground cmd).1 = true
    · exact ⟨_, rfl, Or.inr (by rw [if_pos hb])⟩
    · exact ⟨_, rfl, Or.inl (by rw [if_neg hb])⟩
  obtain ⟨tail, htrace, htail⟩ := hshape
  have hcp : tail.countP Event.isPipe = 0 ∧ tail.countP Event.isFork = 0 ∧
      tail.countP Event.isClose = 0 := by
    rcases htail with rfl | rfl
    · refine ⟨?_, ?_, ?_⟩ <;>
      · rw [List.countP_eq_zero]
        intro e he
        obtain ⟨i, -, rfl⟩ := List.mem_map.mp he
        simp [Event.isPipe, Event.isFork, Event.isClose]
    · refine ⟨?_, ?_, ?_⟩ <;> simp [Event.isPipe, Event.isFork, Event.isClose]
  have hpipes : ((execute_command os g cmd).trace.map Prod.fst).countP Event.isPipe = k := by
    rw [htrace, List.countP_append, List.countP_append, List.countP_append, (countP_pipes k).1,
      (countP_forks os hfork (k + 1)).1, (countP_closeAll k).1, hcp.1]
    omega
  have hforks : ((execute_command os g cmd).trace.map Prod.fst).countP Event.isFork = k + 1 := by
    rw [htrace, List.countP_append, List.countP_append, List.countP_append, (countP_pipes k).2,
      (countP_forks os hfork (k + 1)).2, (countP_closeAll k).2, hcp.2.1]
    omega
  have hcloses : ((execute_command os g cmd).trace.map Prod.fst).countP Event.isClose =
      2 * k := by
    have h1 : ((List.range k).map (fun i => Event.pipe i true)).countP Event.isClose = 0 := by
      rw [List.countP_eq_zero]
      intro e he
      obtain ⟨i, -, rfl⟩ := List.mem_map.mp he
      simp [Event.isClose]
    have h2 : ((List.range (k + 1)).map (fun i => Event.fork i (os.fork i))).countP
        Event.isClose = 0 := by
      rw [List.countP_eq_zero]
      intro e he
      obtain ⟨i, -, rfl⟩ := List.mem_map.mp he
      simp [Event.isClose]
    rw [htrace, List.countP_append, List.countP_append, List.countP_append, h1, h2,
      countP_close_closeAll, hcp.2.2]
    omega
  refine ⟨hn, ⟨tail, htrace, htail⟩, hpipes, hforks, hcloses, ?_, ?_⟩
  · intro i hi
    obtain ⟨a, b, hab, ha, hb⟩ := closeAll_split k i hi
    refine ⟨(List.range k).map (fun i => Event.pipe i true) ++
      (List.range (k + 1)).map (fun i => Event.fork i (os.fork i)) ++ a, b ++ tail, ?_, ?_, ?_⟩
    · rw [htrace, hab]
      simp
    · rw [List.countP_append, List.countP_append, (countP_pipes k).2,
        (countP_forks os hfork (k + 1)).2, ha]
      omega
    · rw [List.countP_append, hb, hcp.2.1]
  · intro hk0
    rw [hforks, hk0]

/-- The claim C2 at the line `ls | wc` in the shell process `shellOS`: two
children are created, both ends of the one pipe are closed (two calls of
`close`), after the two calls of `fork`. -/
theorem pipeline_shape_witness :
    line_ls_wc ≠ [] ∧ (∀ i, shellOS.pipe i = true) ∧ (∀ i, 0 < shellOS.fork i) ∧
      ((execute_command shellOS atPrompt line_ls_wc).trace.map Prod.fst).countP Event.isFork =
        (stripBackground line_ls_wc).2.count '|' + 1 ∧
      ((execute_command shellOS atPrompt line_ls_wc).trace.map Prod.fst).countP Event.isClose =
        2 * (stripBackground line_ls_wc).2.count '|' ∧
      (∀ i, i < (stripBackground line_ls_wc).2.count '|' →
        ∃ pre post, (execute_command shellOS atPrompt line_ls_wc).trace.map Prod.fst =
            pre ++ Event.close i 0 :: Event.close i 1 :: post ∧
          pre.countP Event.isFork = (stripBackground line_ls_wc).2.count '|' + 1 ∧
          post.countP Event.isFork = 0) :=
  ⟨by decide, fun _ => rfl, fun i => by show (0 : Int) < 100 + (i : Int); omega,
    (pipeline_shape shellOS atPrompt line_ls_wc (by decide) (fun _ => rfl)
      (fun i => by show (0 : Int) < 100 + (i : Int); omega)).2.2.2.1,
    (pipeline_shape shellOS atPrompt line_ls_wc (by decide) (fun _ => rfl)
      (fun i => by show (0 : Int) < 100 + (i : Int); omega)).2.2.2.2.1,
    (pipeline_shape shellOS atPrompt line_ls_wc (by decide) (fun _ => rfl)
      (fun i => by show (0 : Int) < 100 + (i : Int); omega)).2.2.2.2.2.1⟩

theorem trim_getLast_keep (s : Str) (c : Char) (hl : s.getLast? = some c)
    (hc : whitespace.contains c = false) : (trim s).getLast? = some c := by
  rcases trim_cases s with ⟨-, hall⟩ | ⟨i, j, hi, hj, hij, hjl, heq⟩
  · have hmem : c ∈ s := by
      obtain ⟨ys, rfl⟩ := List.getLast?_eq_some_iff.mp hl
      simp
    rw [hall c hmem] at hc
    cases hc
  · have hj' := flno_last s whitespace c hl hc
    rw [hj] at hj'
    cases hj'
    rw [heq, List.getLast?_eq_getElem?]
    have hlen : ((s.drop i).take (s.length - 1 - i + 1)).length = s.length - 1 - i + 1 := by
      rw [List.length_take, List.length_drop]
      omega
    rw [hlen, List.getElem?_take_of_lt (by omega), List.getElem?_drop]
    have hidx : i + (s.length - 1 - i + 1 - 1) = s.length - 1 := by omega
    rw [hidx, ← List.getLast?_eq_getElem?, hl]

/-- C5, the code at the failing input `ls & ` (a space after the `&`), which
`main` passes to `execute_command` as it is.  The line ends with `&` once
trimmed, yet `execute_command` tests the untrimmed last character (a space):
the background flag stays unset (the shell waits for the child and records no
job), the `&` is not removed, and the child of the stage calls `execvp` with
the argument list `ls`, `&`. -/
theorem trailing_space_hides_ampersand :
    (trim line_ls_amp_space).getLast? = some '&' ∧
      (stripBackground line_ls_amp_space).1 = false ∧
      execute_command shellOS atPrompt line_ls_amp_space =
        { trace := emit { atPrompt with command_running := true }
            [Event.fork 0 100, Event.waitpid 100]
          outcome := Outcome.returned atPrompt } ∧
      (execute_command (childOS 0) atPrompt line_ls_amp_space).outcome =
        Outcome.replaced [['l', 's'], ['&']] ∧
      main_iteration shellOS atPrompt line_ls_amp_space =
        execute_command shellOS atPrompt line_ls_amp_space := by
  decide

/-- What the code does with the final `&`: `execute_command` sets the
background flag exactly when the last character of the line as passed (not
trimmed) is `&`.  It then removes that character: the text that is split into
stages is `trim` of the line without its last character, and the shell records
the leader instead of waiting.  When the line does not end with `&`, in
particular whenever the trimmed line does not end with `&`, the flag is not
set and the text is unchanged. -/
theorem background_flag (os : OS) (g : Globals) (cmd : Str) :
    ((stripBackground cmd).1 = true ↔ cmd.getLast? = some '&') ∧
    (cmd.getLast? = some '&' → (stripBackground cmd).2 = trim cmd.dropLast) ∧
    (cmd.getLast? ≠ some '&' → (stripBackground cmd).2 = cmd) ∧
    ((trim cmd).getLast? ≠ some '&' → (stripBackground cmd).1 = false) ∧
    ((∀ i, os.pipe i = true) → (∀ i, 0 < os.fork i) →
      (execute_command os g cmd).outcome = Outcome.returned
        (if cmd.getLast? = some '&' then
          { command_running := false
            background_processes := g.background_processes ++ [os.fork 0]
            fg_pid := g.fg_pid }
        else { g with command_running := false })) := by
  have hflag : (stripBackground cmd).1 = true ↔ cmd.getLast? = some '&' := by
    unfold stripBackground
    by_cases h : cmd.getLast? = some '&'
    · simp [h]
    · simp [h]
  refine ⟨hflag, ?_, ?_, ?_, ?_⟩
  · intro h
    unfold stripBackground
    rw [if_pos h, List.dropLast_eq_take]
    simp [substr]
  · intro h
    unfold stripBackground
    rw [if_neg h]
  · intro h
    have hraw : cmd.getLast? ≠ some '&' := fun hl => h (trim_getLast_keep cmd '&' hl (by decide))
    cases hb : (stripBackground cmd).1 with
    | false => rfl
    | true => exact absurd (hflag.mp hb) hraw
  · intro hpipe hfork
    rw [execute_command_shell os g cmd hpipe hfork]
    by_cases h : cmd.getLast? = some '&'
    · simp only [if_pos (hflag.mpr h), if_pos h]
    · simp only [if_neg (fun hb => h (hflag.mp hb)), if_neg h]

/-- The background test at the line `sleep 9 &`. -/
theorem background_flag_witness :
    (∀ i, shellOS.pipe i = true) ∧ (∀ i, 0 < shellOS.fork i) ∧
      line_sleep_amp.getLast? = some '&' ∧
      (stripBackground line_sleep_amp).2 = trim line_sleep_amp.dropLast ∧
      (execute_command shellOS atPrompt line_sleep_amp).outcome = Outcome.returned
        (if line_sleep_amp.getLast? = some '&' then
          { command_running := false
            background_processes := atPrompt.background_processes ++ [shellOS.fork 0]
            fg_pid := atPrompt.fg_pid }
        else { atPrompt with command_running := false }) :=
  ⟨fun _ => rfl, fun i => by show (0 : Int) < 100 + (i : Int); omega, by decide,
    (background_flag shellOS atPrompt line_sleep_amp).2.1 (by decide),
    (background_flag shellOS atPrompt line_sleep_amp).2.2.2.2 (fun _ => rfl)
      (fun i => by show (0 : Int) < 100 + (i : Int); omega)⟩

theorem findChar_zero_eq (t : Str) (c : Char) (h : c ∈ t) :
    findChar t c 0 = some (List.indexOf c t) := by
  induction t with
  | nil => cases h
  | cons x xs ih =>
    unfold findChar
    rw [List.indexOf_cons]
    by_cases hx : x = c
    · rw [if_pos hx]
      simp [hx]
    · rw [if_neg hx]
      have hmem : c ∈ xs := by
        rcases List.mem_cons.mp h with h | h
        · exact absurd h.symm hx
        · exact h
      rw [ih hmem]
      have hbeq : (x == c) = false := by simpa using hx
      simp [hbeq]

theorem findChar_zero_none (t : Str) (c : Char) (h : c ∉ t) : findChar t c 0 = none := by
  induction t with
  | nil => rfl
  | cons x xs ih =>
    unfold findChar
    have hx : ¬ x = c := fun e => h (e ▸ List.mem_cons_self _ _)
    rw [if_neg hx, ih (fun hm => h (List.mem_cons_of_mem _ hm))]
    rfl

theorem append_test (t : Str) (p : Nat) (hp : p < t.length) :
    (p ≠ t.length - 1 ∧ t.getD (p + 1) ' ' = '>') ↔ t[p + 1]? = some '>' := by
  rw [List.getD_eq_getElem?_getD]
  constructor
  · rintro ⟨h1, h2⟩
    have hlt : p + 1 < t.length := by omega
    rw [List.getElem?_eq_getElem hlt] at h2 ⊢
    simpa using h2
  · intro h
    obtain ⟨hlt, -⟩ := List.getElem?_eq_some.mp h
    refine ⟨by omega, ?_⟩
    rw [h]
    rfl

/-- C3, counterexample: the line `cat > b < a` has one stage, which is the last
one and contains `>`, with the first `>` at index 4 and no `>` at index 5.
The claim gives the output path `trim` of the text after the operator, which
is `b < a`; the child resolves the input redirection first, which cuts the
text down to `cat > b`, and opens `b` for writing. -/
theorem sole_stage_output_after_input_cut :
    '>' ∈ line_out_in ∧ List.indexOf '>' line_out_in = 4 ∧ line_out_in[5]? ≠ some '>' ∧
      trim (line_out_in.drop 5) = ['b', ' ', '<', ' ', 'a'] ∧
      (splitStages (stripBackground line_out_in).2) = [line_out_in] ∧
      (childBody (childOS 0) false 0 1 0 line_out_in).1 =
        [Event.openIn ['a'] true, Event.dup2File 0 true, Event.closeFile,
          Event.openOut ['b'] false true, Event.dup2File 1 true, Event.closeFile,
          Event.execvp [['c', 'a', 't']]] ∧
      Event.openOut (c_str (trim (line_out_in.drop 5))) false true ∉
        (childBody (childOS 0) false 0 1 0 line_out_in).1 := by
  decide

/-- C3, amended: let `t` be the text of the last stage (stage `i` of `n`, with
`i` not below `n - 1`), containing `>`, where the stage is not also the first
one or `t` contains no `<`; let `p` be the index of the first `>`.  Then `t`
reaches the output step unchanged; the redirection is in append mode exactly
when the character at `p + 1` exists and is `>`; the output path is `trim` of
the text from `p + 2` (append) or from `p + 1` (truncate), and the child opens
it, as a C string, in that mode; the residual command text is `trim` of
`t[0..p)`, and when `open` and `dup2` succeed it is the text from which the
child builds its argument list. -/
theorem output_redirection (os : OS) (background : Bool) (bg_pgid : Int) (n i : Nat)
    (t : Str) (p : Nat) (hlast : ¬ i < n - 1) (hfirst : 0 < i ∨ '<' ∉ t) (ht : '>' ∈ t)
    (hp : List.indexOf '>' t = p) :
    (wireStdin os i t).2 = some t ∧
    resolveOutput t = some
      (decide (t[p + 1]? = some '>'),
        trim (t.drop (if t[p + 1]? = some '>' then p + 2 else p + 1)),
        trim (t.take p)) ∧
    (wireStdout os n i t).1.head? = some
      (Event.openOut (c_str (trim (t.drop (if t[p + 1]? = some '>' then p + 2 else p + 1))))
        (decide (t[p + 1]? = some '>'))
        (os.openOut (c_str (trim (t.drop (if t[p + 1]? = some '>' then p + 2 else p + 1))))
          (decide (t[p + 1]? = some '>')))) ∧
    (os.openOut (c_str (trim (t.drop (if t[p + 1]? = some '>' then p + 2 else p + 1))))
        (decide (t[p + 1]? = some '>')) = true → os.dup2 = true →
      (wireStdout os n i t).2 = some (trim (t.take p)) ∧
      (childBody os background bg_pgid n i t).2 =
        (if (splitWords (trim (t.take p))).isEmpty then ChildNext.continueLoop
        else if os.execvp ((splitWords (trim (t.take p))).map c_str) then
          ChildNext.replaced ((splitWords (trim (t.take p))).map c_str)
        else ChildNext.exited 1)) := by
  have hlt : p < t.length := by
    rw [← hp]
    exact List.indexOf_lt_length.mpr ht
  have hin : ∃ e1, wireStdin os i t = (e1, some t) := by
    unfold wireStdin
    rcases hfirst with hi | hno
    · rw [if_pos hi]
      exact ⟨_, rfl⟩
    · by_cases hi : 0 < i
      · rw [if_pos hi]
        exact ⟨_, rfl⟩
      · unfold resolveInput
        rw [if_neg hi, findChar_zero_none t '<' hno]
        exact ⟨_, rfl⟩
  have hres : resolveOutput t = some
      (decide (t[p + 1]? = some '>'),
        trim (t.drop (if t[p + 1]? = some '>' then p + 2 else p + 1)),
        trim (t.take p)) := by
    unfold resolveOutput
    rw [findChar_zero_eq t '>' ht, hp]
    simp only [substr, List.drop_zero]
    by_cases ha : t[p + 1]? = some '>'
    · rw [if_pos ((append_test t p hlt).mpr ha)]
      simp [ha]
    · rw [if_neg (fun h => ha ((append_test t p hlt).mp h))]
      simp [ha]
  obtain ⟨e1, he1⟩ := hin
  refine ⟨by rw [he1], hres, ?_, ?_⟩
  · unfold wireStdout
    rw [if_neg hlast, hres]
    simp only []
    by_cases hopen : os.openOut
        (c_str (trim (t.drop (if t[p + 1]? = some '>' then p + 2 else p + 1))))
        (decide (t[p + 1]? = some '>')) = true
    · by_cases hdup : os.dup2 = true
      · simp [hopen, hdup]
      · simp [hopen, hdup]
    · simp [hopen]
  · intro hopen hdup
    have hout : ∃ e2, wireStdout os n i t = (e2, some (trim (t.take p))) := by
      unfold wireStdout
      rw [if_neg hlast, hres]
      simp only [hopen, hdup, Bool.not_true, Bool.false_eq_true, if_false]
      exact ⟨_, rfl⟩
    obtain ⟨e2, he2⟩ := hout
    refine ⟨by rw [he2], ?_⟩
    unfold childBody
    simp only [he1, he2]
    by_cases hempty : (splitWords (trim (t.take p))).isEmpty = true
    · simp only [hempty, if_true]
    · simp only [hempty, Bool.false_eq_true, if_false]
      by_cases hex : os.execvp ((splitWords (trim (t.take p))).map c_str) = true
      · simp only [hex, if_true]
      · simp only [hex, Bool.false_eq_true, if_false]

/-- The amended claim C3 at the text `a >> b` of the last of two stages. -/
theorem output_redirection_witness :
    ¬ 1 < 2 - 1 ∧ (0 < 1 ∨ '<' ∉ ['a', ' ', '>', '>', ' ', 'b']) ∧
      '>' ∈ ['a', ' ', '>', '>', ' ', 'b'] ∧
      List.indexOf '>' ['a', ' ', '>', '>', ' ', 'b'] = 2 ∧
      resolveOutput ['a', ' ', '>', '>', ' ', 'b'] = some (true, ['b'], ['a']) ∧
      (wireStdout shellOS 2 1 ['a', ' ', '>', '>', ' ', 'b']).1.head? =
        some (Event.openOut ['b'] true true) :=
  ⟨by decide, by decide, by decide, by decide,
    (output_redirection shellOS false 0 2 1 ['a', ' ', '>', '>', ' ', 'b'] 2
      (by decide) (by decide) (by decide) (by decide)).2.1,
    (output_redirection shellOS false 0 2 1 ['a', ' ', '>', '>', ' ', 'b'] 2
      (by decide) (by decide) (by decide) (by decide)).2.2.1⟩

theorem findChar_append (x y : Str) (c : Char) (h : c ∉ x) :
    findChar (x ++ c :: y) c 0 = some x.length := by
  induction x with
  | nil => simp [findChar]
  | cons a as ih =>
    have ha : ¬ a = c := fun e => h (e ▸ List.mem_cons_self _ _)
    have has : c ∉ as := fun hm => h (List.mem_cons_of_mem _ hm)
    rw [List.cons_append]
    unfold findChar
    rw [if_neg ha, ih has]
    rfl

theorem mem_trim (s : Str) (c : Char) (h : c ∈ trim s) : c ∈ s := by
  rcases trim_cases s with ⟨hnil, -⟩ | ⟨i, j, -, -, -, -, heq⟩
  · rw [hnil] at h
    cases h
  · rw [heq] at h
    exact List.mem_of_mem_drop (List.mem_of_mem_take h)

/-- In the order `cmd < a > b` the input step takes the whole rest of the
stage, `a > b`, as the input path, and the output step that follows finds no
`>` in what is left: this holds for every such stage, not only for the one
evaluated in `input_then_output_misparsed`. -/
theorem input_first_takes_rest_as_path (cmd a b : Str) (h1 : '<' ∉ cmd) (h2 : '>' ∉ cmd) :
    resolveInput (cmd ++ '<' :: (a ++ '>' :: b)) = some (trim (a ++ '>' :: b), trim cmd) ∧
      resolveOutput (trim cmd) = none := by
  constructor
  · unfold resolveInput
    rw [findChar_append cmd _ '<' h1]
    simp [substr]
  · unfold resolveOutput
    rw [findChar_zero_none (trim cmd) '>' (fun hm => h2 (mem_trim cmd '>' hm))]

theorem trim_cons_ws (c : Char) (s : Str) (hc : whitespace.contains c = true) :
    trim (c :: s) = trim s := by
  unfold trim
  simp only [find_first_not_of, find_last_not_of, hc, if_true]
  cases hi : find_first_not_of s whitespace with
  | none => rfl
  | some i =>
    cases hj : find_last_not_of s whitespace with
    | none => rfl
    | some j =>
      simp only [Option.map_some', substr, List.drop_succ_cons]
      congr 1
      omega

theorem trim_append_left_ws (x y : Str) (hx : ∀ c ∈ x, whitespace.contains c = true) :
    trim (x ++ y) = trim y := by
  induction x with
  | nil => rfl
  | cons c cs ih =>
    rw [List.cons_append, trim_cons_ws c _ (hx c (List.mem_cons_self _ _))]
    exact ih (fun c' hc' => hx c' (List.mem_cons_of_mem _ hc'))

theorem ffno_append_ws (x y set : Str) (hy : ∀ c ∈ y, set.contains c = true) :
    find_first_not_of (x ++ y) set = find_first_not_of x set := by
  induction x with
  | nil =>
    rw [List.nil_append, (ffno_none y set).mpr hy]
    rfl
  | cons c cs ih =>
    rw [List.cons_append]
    unfold find_first_not_of
    rw [ih]

theorem flno_append_ws (x y set : Str) (hy : ∀ c ∈ y, set.contains c = true) :
    find_last_not_of (x ++ y) set = find_last_not_of x set := by
  induction x with
  | nil =>
    rw [List.nil_append, (flno_none y set).mpr hy]
    rfl
  | cons c cs ih =>
    rw [List.cons_append]
    unfold find_last_not_of
    rw [ih]

theorem trim_append_right_ws (x y : Str) (hy : ∀ c ∈ y, whitespace.contains c = true) :
    trim (x ++ y) = trim x := by
  rcases trim_cases x with ⟨hnil, hall⟩ | ⟨i, j, hi, hj, hij, hjl, heq⟩
  · rw [hnil]
    apply trim_all_ws
    intro c hc
    rcases List.mem_append.mp hc with h | h
    · exact hall c h
    · exact hy c h
  · rw [heq]
    unfold trim
    rw [ffno_append_ws x y whitespace hy, flno_append_ws x y whitespace hy, hi, hj]
    simp only [substr]
    rw [List.drop_append_of_le_length (by omega),
      List.take_append_of_le_length (by rw [List.length_drop]; omega)]

/-- In the order `cmd > b < a` (no `<` or `>` inside `cmd` and `b`) the two
steps of a single stage resolve both redirections: the input step yields the
path `trim a` and leaves `trim (cmd > b)`, in which the output step finds the
path `trim b`, in truncate mode, and the residual text `trim cmd`. -/
theorem output_first_order_resolved (cmd a b : Str) (h1 : '<' ∉ cmd) (h2 : '>' ∉ cmd)
    (h3 : '<' ∉ b) (h4 : '>' ∉ b) :
    resolveInput (cmd ++ '>' :: (b ++ '<' :: a)) = some (trim a, trim (cmd ++ '>' :: b)) ∧
      resolveOutput (trim (cmd ++ '>' :: b)) = some (false, trim b, trim cmd) := by
  constructor
  · have hno : '<' ∉ cmd ++ '>' :: b := by
      intro hm
      rcases List.mem_append.mp hm with h | h
      · exact h1 h
      · rcases List.mem_cons.mp h with h | h
        · cases h
        · exact h3 h
    have hassoc : cmd ++ '>' :: (b ++ '<' :: a) = (cmd ++ '>' :: b) ++ '<' :: a := by simp
    unfold resolveInput
    rw [hassoc, findChar_append _ _ '<' hno]
    simp only [substr, List.drop_zero, List.take_left]
    have hdrop : List.drop ((cmd ++ '>' :: b).length + 1) ((cmd ++ '>' :: b) ++ '<' :: a) = a := by
      rw [List.drop_append_eq_append_drop]
      simp
    rw [hdrop]
  · -- `cmd = wl ++ L` and `b = R ++ wr` with `wl`, `wr` whitespace
    let ws : Char → Bool := fun c => whitespace.contains c
    have hcmd : cmd = cmd.takeWhile ws ++ cmd.dropWhile ws :=
      (List.takeWhile_append_dropWhile ws cmd).symm
    have hb : b = (b.reverse.dropWhile ws).reverse ++ (b.reverse.takeWhile ws).reverse := by
      rw [← List.reverse_append, List.takeWhile_append_dropWhile, List.reverse_reverse]
    have hwl : ∀ c ∈ cmd.takeWhile ws, whitespace.contains c = true :=
      fun c hc => List.mem_takeWhile_imp hc
    have hwr : ∀ c ∈ (b.reverse.takeWhile ws).reverse, whitespace.contains c = true :=
      fun c hc => List.mem_takeWhile_imp (List.mem_reverse.mp hc)
    generalize hL : cmd.dropWhile ws = L at hcmd
    generalize hR : (b.reverse.dropWhile ws).reverse = R at hb
    have hLhead : ∀ c, L.head? = some c → whitespace.contains c = false := by
      intro c hc
      have hne : cmd.dropWhile ws ≠ [] := by
        rw [hL]
        intro h
        rw [h] at hc
        cases hc
      have := List.head_dropWhile_not ws cmd hne
      rw [← hL, List.head?_eq_head hne] at hc
      cases hc
      exact this
    have hRlast : ∀ c, R.getLast? = some c → whitespace.contains c = false := by
      intro c hc
      rw [← hR, List.getLast?_reverse] at hc
      have hne : b.reverse.dropWhile ws ≠ [] := by
        intro h
        rw [h] at hc
        cases hc
      have := List.head_dropWhile_not ws b.reverse hne
      rw [List.head?_eq_head hne] at hc
      cases hc
      exact this
    have hLsub : ∀ c ∈ L, c ∈ cmd := by
      intro c hc
      rw [hcmd]
      exact List.mem_append_right _ hc
    have hRsub : ∀ c ∈ R, c ∈ b := by
      intro c hc
      rw [hb]
      exact List.mem_append_left _ hc
    have hgt : whitespace.contains '>' = false := by decide
    -- the trimmed text is `L ++ '>' :: R`
    have hM : trim (cmd ++ '>' :: b) = L ++ '>' :: R := by
      have hshape : cmd ++ '>' :: b =
          cmd.takeWhile ws ++ ((L ++ '>' :: R) ++ (b.reverse.takeWhile ws).reverse) := by
        conv_lhs => rw [hcmd, hb]
        simp
      rw [hshape, trim_append_left_ws _ _ hwl, trim_append_right_ws _ _ hwr]
      apply trim_eq_self
      · simp
      · intro c hc
        cases L with
        | nil =>
          simp at hc
          subst hc
          exact hgt
        | cons x xs => exact hLhead c (by simpa using hc)
      · intro c hc
        rw [List.getLast?_append] at hc
        cases R with
        | nil =>
          simp at hc
          subst hc
          exact hgt
        | cons y ys =>
          rw [List.getLast?_cons_cons] at hc
          cases hl : (y :: ys).getLast? with
          | none => exact absurd (List.getLast?_eq_none_iff.mp hl) (by simp)
          | some c' =>
            rw [hl] at hc
            simp at hc
            subst hc
            exact hRlast c' hl
    have htL : trim L = trim cmd := by
      conv_rhs => rw [hcmd]
      rw [trim_append_left_ws _ _ hwl]
    have htR : trim R = trim b := by
      conv_rhs => rw [hb]
      rw [trim_append_right_ws _ _ hwr]
    have hLno : '>' ∉ L := fun h => h2 (hLsub _ h)
    have hRno : '>' ∉ R := fun h => h4 (hRsub _ h)
    rw [hM]
    unfold resolveOutput
    rw [findChar_append L R '>' hLno]
    have hidx : (L ++ '>' :: R).getD (L.length + 1) ' ' ≠ '>' := by
      rw [List.getD_eq_getElem?_getD, List.getElem?_append_right (by omega)]
      have : L.length + 1 - L.length = 1 := by omega
      rw [this]
      cases R with
      | nil => simp
      | cons y ys =>
        simp only [List.getElem?_cons_succ, List.getElem?_cons_zero, Option.getD_some]
        intro hy
        exact hRno (hy ▸ List.mem_cons_self _ _)
    simp only []
    rw [if_neg (fun h => hidx h.2)]
    simp only [substr, List.drop_zero, List.take_left]
    have hdrop : List.drop (L.length + 1) (L ++ '>' :: R) = R := by
      rw [List.drop_append_eq_append_drop]
      simp
    rw [hdrop, htL, htR]

/-! ## The job table and `fg` -/

theorem eraseFirst_none (T : List Int) (pid : Int) : eraseFirst T pid = none ↔ pid ∉ T := by
  induction T with
  | nil => simp [eraseFirst]
  | cons x xs ih =>
    unfold eraseFirst
    by_cases hx : x = pid
    · rw [if_pos hx]
      simp [hx]
    · rw [if_neg hx]
      simp only [Option.map_eq_none', ih, List.mem_cons, not_or]
      exact ⟨fun h => ⟨fun e => hx e.symm, h⟩, fun h => h.2⟩

theorem eraseFirst_some (T : List Int) (pid : Int) (T' : List Int)
    (h : eraseFirst T pid = some T') :
    ∃ l1 l2, T = l1 ++ pid :: l2 ∧ pid ∉ l1 ∧ T' = l1 ++ l2 := by
  induction T generalizing T' with
  | nil => simp [eraseFirst] at h
  | cons x xs ih =>
    unfold eraseFirst at h
    by_cases hx : x = pid
    · rw [if_pos hx] at h
      cases h
      exact ⟨[], xs, by simp [hx], by simp, rfl⟩
    · rw [if_neg hx] at h
      simp only [Option.map_eq_some'] at h
      obtain ⟨r, hr, rfl⟩ := h
      obtain ⟨l1, l2, h1, h2, h3⟩ := ih r hr
      refine ⟨x :: l1, l2, by simp [h1], ?_, by simp [h3]⟩
      simp only [List.mem_cons, not_or]
      exact ⟨fun e => hx e.symm, h2⟩

/-- C6: the `fg` built-in on the job table `T`.  With no argument and an empty
table, with an argument that is not a valid integer, or with a PID that is not
in `T`, it prints the error and returns with the table and the Foreground
Target unchanged, without any other action.  Otherwise the target (the given
PID, or the last entry of `T` when there is no argument) is erased from `T` at
its first occurrence, all other entries keeping their order (with distinct
entries the target is then absent from the table, and without an argument the
table loses its last entry); the shell waits for the target with the
Foreground Target set to it, and the Foreground Target is `0` on return. -/
theorem fg_contract (g : Globals) (args : List Str) :
    (args.length < 2 → g.background_processes = [] →
      fg_builtin g args =
        { trace := emit { g with command_running := true } [Event.print "fg: no current job"]
          outcome := Outcome.returned
            { command_running := false
              background_processes := g.background_processes
              fg_pid := g.fg_pid } }) ∧
    (2 ≤ args.length → parseInt (args.getD 1 []) = none →
      fg_builtin g args =
        { trace := emit { g with command_running := true } [Event.print "Invalid PID"]
          outcome := Outcome.returned
            { command_running := false
              background_processes := g.background_processes
              fg_pid := g.fg_pid } }) ∧
    (∀ pid, 2 ≤ args.length → parseInt (args.getD 1 []) = some pid →
      pid ∉ g.background_processes →
      fg_builtin g args =
        { trace := emit { g with command_running := true } [Event.print "fg: job not found"]
          outcome := Outcome.returned
            { command_running := false
              background_processes := g.background_processes
              fg_pid := g.fg_pid } }) ∧
    (∀ pid,
      ((args.length < 2 ∧ g.background_processes.getLast? = some pid) ∨
        (2 ≤ args.length ∧ parseInt (args.getD 1 []) = some pid ∧
          pid ∈ g.background_processes)) →
      ∃ l1 l2, g.background_processes = l1 ++ pid :: l2 ∧ pid ∉ l1 ∧
        (g.background_processes.Nodup → pid ∉ l1 ++ l2) ∧
        (args.length < 2 → g.background_processes.Nodup →
          l1 ++ l2 = g.background_processes.dropLast) ∧
        fg_builtin g args =
          { trace := [(Event.waitpid pid,
              { command_running := true, background_processes := l1 ++ l2, fg_pid := pid })]
            outcome := Outcome.returned
              { command_running := true, background_processes := l1 ++ l2, fg_pid := 0 } }) := by
  refine ⟨?_, ?_, ?_, ?_⟩
  · intro hlen hT
    simp [fg_builtin, resolvePid, hlen, hT]
  · intro hlen hparse
    have hlen' : ¬ args.length < 2 := by omega
    simp only [fg_builtin, resolvePid, if_neg hlen', hparse]
  · intro pid hlen hparse hmem
    have hlen' : ¬ args.length < 2 := by omega
    simp only [fg_builtin, resolvePid, if_neg hlen', hparse, (eraseFirst_none _ pid).mpr hmem]
  · intro pid hcase
    have hmem : pid ∈ g.background_processes := by
      rcases hcase with ⟨-, hlast⟩ | ⟨-, -, hm⟩
      · obtain ⟨ys, hys⟩ := List.getLast?_eq_some_iff.mp hlast
        rw [hys]
        simp
      · exact hm
    have hres : resolvePid "fg" { g with command_running := true } args = Except.ok pid := by
      rcases hcase with ⟨hlen, hlast⟩ | ⟨hlen, hparse, -⟩
      · simp [resolvePid, hlen, hlast]
      · have hlen' : ¬ args.length < 2 := by omega
        simp only [resolvePid, if_neg hlen', hparse]
    cases her : eraseFirst g.background_processes pid with
    | none => exact absurd hmem ((eraseFirst_none _ pid).mp her)
    | some T' =>
      obtain ⟨l1, l2, h1, h2, h3⟩ := eraseFirst_some _ pid T' her
      subst h3
      have hnd : g.background_processes.Nodup → pid ∉ l1 ++ l2 := by
        intro hn
        rw [h1] at hn
        exact (List.nodup_cons.mp (List.nodup_middle.mp hn)).1
      refine ⟨l1, l2, h1, h2, hnd, ?_, ?_⟩
      · intro hlen hn
        have hlast : g.background_processes.getLast? = some pid := by
          rcases hcase with ⟨-, hlast⟩ | ⟨hlen', -, -⟩
          · exact hlast
          · omega
        have hl2 : l2 = [] := by
          by_contra hne
          have hnot := hnd hn
          rw [h1] at hlast
          have : (l1 ++ pid :: l2).getLast? = l2.getLast? := by
            cases l2 with
            | nil => exact absurd rfl hne
            | cons y ys =>
              rw [List.getLast?_append, List.getLast?_cons_cons]
              cases h : (y :: ys).getLast? with
              | none => exact absurd (List.getLast?_eq_none_iff.mp h) (by simp)
              | some c => rfl
          rw [this] at hlast
          obtain ⟨ys, hys⟩ := List.getLast?_eq_some_iff.mp hlast
          apply hnot
          rw [hys]
          simp
        subst hl2
        rw [h1]
        simp
      · unfold fg_builtin
        simp only [hres, her]
        rfl

/-- The claim C6 at the line `fg` with the job table `5, 7, 9`. -/
theorem fg_contract_witness :
    (([line_fg].length < 2 ∧ [5, 7, 9].getLast? = some (9 : Int)) ∨
        (2 ≤ [line_fg].length ∧ parseInt ([line_fg].getD 1 []) = some 9 ∧
          (9 : Int) ∈ [5, 7, 9])) ∧
      ∃ l1 l2, [5, 7, 9] = l1 ++ (9 : Int) :: l2 ∧
        fg_builtin { command_running := false, background_processes := [5, 7, 9], fg_pid := 0 }
            [line_fg] =
          { trace := [(Event.waitpid 9,
              { command_running := true, background_processes := l1 ++ l2, fg_pid := 9 })]
            outcome := Outcome.returned
              { command_running := true, background_processes := l1 ++ l2, fg_pid := 0 } } := by
  refine ⟨Or.inl ⟨by decide, by decide⟩, ?_⟩
  obtain ⟨l1, l2, h1, -, -, -, h5⟩ :=
    (fg_contract { command_running := false, background_processes := [5, 7, 9], fg_pid := 0 }
      [line_fg]).2.2.2 9 (Or.inl ⟨by decide, by decide⟩)
  exact ⟨l1, l2, h1, h5⟩

/-! ## Process groups in a foreground pipeline -/

/-- The branch of the child ends in `continue`, not in `exit`, whenever the
wiring succeeded and the residual text has no word. -/
theorem child_with_empty_argv_continues (os : OS) (background : Bool) (bg_pgid : Int)
    (n i : Nat) (text : Str) (e1 e2 : List Event) (text1 text2 : Str)
    (h1 : wireStdin os i text = (e1, some text1))
    (h2 : wireStdout os n i text1 = (e2, some text2))
    (h3 : splitWords text2 = []) :
    (childBody os background bg_pgid n i text).2 = ChildNext.continueLoop := by
  unfold childBody
  simp only [h1, h2, h3, List.isEmpty_nil, if_true]

/-- Conversely the branch of the child ends in `continue` only in that case:
a child whose residual text has a word calls `execvp` and never comes back. -/
theorem child_continues_only_with_empty_argv (os : OS) (background : Bool) (bg_pgid : Int)
    (n i : Nat) (text : Str)
    (h : (childBody os background bg_pgid n i text).2 = ChildNext.continueLoop) :
    ∃ e1 e2 text1 text2, wireStdin os i text = (e1, some text1) ∧
      wireStdout os n i text1 = (e2, some text2) ∧ splitWords text2 = [] := by
  unfold childBody at h
  simp only [] at h
  split at h
  · cases h
  · rename_i e1 text1 h1
    split at h
    · cases h
    · rename_i e2 text2 h2
      split at h
      · rename_i hempty
        exact ⟨e1, e2, text1, text2, h1, h2, List.isEmpty_iff.mp hempty⟩
      · split at h <;> cases h

/-- C9, the code at the failing inputs `|` and `| &`, seen from the child
created for stage 0 (its text is empty, so is its argument list).  The branch
of the child ends with `continue`: the child goes on with iteration 1 of the
loop and forks a process of its own (PID `201`), closes the pipes and waits as
the shell would, and returns to the read-eval loop; on `| &` it also appends a
job (`pids[0]`, which is `0` in the child) to its copy of the job table.  Both
lines are passed by `main` to `execute_command` as they are. -/
theorem empty_stage_child_continues :
    childBody (childOS 0) false 0 2 0 [] =
      ([Event.close 0 0, Event.dup2Pipe 0 1 1, Event.close 0 1, Event.close 0 0,
        Event.close 0 1], ChildNext.continueLoop) ∧
    execute_command (childOS 0) atPrompt line_bar =
      { trace := emit { atPrompt with command_running := true }
          [Event.pipe 0 true, Event.fork 0 0, Event.close 0 0, Event.dup2Pipe 0 1 1,
            Event.close 0 1, Event.close 0 0, Event.close 0 1, Event.fork 1 201,
            Event.close 0 0, Event.close 0 1, Event.waitpid 0, Event.waitpid 201]
        outcome := Outcome.returned atPrompt } ∧
    (execute_command (childOS 0) atPrompt line_bar_amp).outcome =
      Outcome.returned { command_running := false, background_processes := [0], fg_pid := 0 } ∧
    Event.fork 1 201 ∈ (execute_command (childOS 0) atPrompt line_bar_amp).trace.map Prod.fst ∧
    main_iteration (childOS 0) atPrompt line_bar = execute_command (childOS 0) atPrompt line_bar ∧
    main_iteration (childOS 0) atPrompt line_bar_amp =
      execute_command (childOS 0) atPrompt line_bar_amp := by
  decide

/-- C10, the code at failing inputs.  After `fg` has brought the job `1234` to
the foreground and waited for it, the read-eval loop is back at the prompt
with `command_running` still true; so it is when `execute_command` returns
because `pipe` or `fork` failed. -/
theorem running_flag_left_set :
    (main_iteration shellOS
        { command_running := false, background_processes := [1234], fg_pid := 0 } line_fg).outcome =
      Outcome.returned { command_running := true, background_processes := [], fg_pid := 0 } ∧
    (main_iteration pipeFailOS atPrompt line_ls_wc).outcome =
      Outcome.returned { command_running := true, background_processes := [], fg_pid := 0 } ∧
    (main_iteration forkFailOS atPrompt line_ls).outcome =
      Outcome.returned { command_running := true, background_processes := [], fg_pid := 0 } := by
  decide

/-- The paths that do reset the Running Flag: `pwd`, `cd` (with an argument or
with `HOME` set), `wait`, `bg`, the error paths of `fg`, and `execute_command`
in a shell process whose calls of `pipe` and `fork` succeed. -/
theorem running_flag_reset_elsewhere (os : OS) (g : Globals) (args : List Str) (cmd : Str) :
    (∃ g', (pwd_builtin os g).outcome = Outcome.returned g' ∧ g'.command_running = false) ∧
    ((2 ≤ args.length ∨ os.home ≠ none) →
      ∃ g', (cd_builtin os g args).outcome = Outcome.returned g' ∧ g'.command_running = false) ∧
    (∃ g', (wait_builtin g).outcome = Outcome.returned g' ∧ g'.command_running = false) ∧
    (∃ g', (bg_builtin g args).outcome = Outcome.returned g' ∧ g'.command_running = false) ∧
    ((∀ pid, resolvePid "fg" { g with command_running := true } args = Except.ok pid →
        pid ∉ g.background_processes) →
      ∃ g', (fg_builtin g args).outcome = Outcome.returned g' ∧ g'.command_running = false) ∧
    ((∀ i, os.pipe i = true) → (∀ i, 0 < os.fork i) →
      ∃ g', (execute_command os g cmd).outcome = Outcome.returned g' ∧
        g'.command_running = false) := by
  refine ⟨⟨_, rfl, rfl⟩, ?_, ⟨_, rfl, rfl⟩, ?_, ?_, ?_⟩
  · intro hcd
    unfold cd_builtin
    simp only []
    split
    · rename_i hlen
      split
      · rename_i hhome
        rcases hcd with h | h
        · omega
        · exact absurd hhome h
      · split
        · exact ⟨_, rfl, rfl⟩
        · exact ⟨_, rfl, rfl⟩
    · split
      · exact ⟨_, rfl, rfl⟩
      · exact ⟨_, rfl, rfl⟩
  · unfold bg_builtin
    simp only []
    split
    · exact ⟨_, rfl, rfl⟩
    · split
      · exact ⟨_, rfl, rfl⟩
      · exact ⟨_, rfl, rfl⟩
  · intro h
    unfold fg_builtin
    simp only []
    split
    · exact ⟨_, rfl, rfl⟩
    · rename_i pid hres
      have hnot := h pid hres
      rw [(eraseFirst_none _ pid).mpr hnot]
      exact ⟨_, rfl, rfl⟩
  · intro hpipe hfork
    rw [execute_command_shell os g cmd hpipe hfork]
    by_cases hb : (stripBackground cmd).1 = true
    · simp only [if_pos hb]
      exact ⟨_, rfl, rfl⟩
    · simp only [if_neg hb]
      exact ⟨_, rfl, rfl⟩

/-- C4, the code at the failing input `cat < a > b`, seen from the child of the
only stage: everything after `<` is taken as the input path, so the child
opens `a > b` for reading and performs no output redirection.  In the other
order, `cat > b < a`, the child opens `a` for reading and `b` for writing.
`main` passes the line to `execute_command` as it is. -/
theorem input_then_output_misparsed :
    resolveInput line_in_out = some (['a', ' ', '>', ' ', 'b'], ['c', 'a', 't']) ∧
    resolveOutput ['c', 'a', 't'] = none ∧
    execute_command (childOS 0) atPrompt line_in_out =
      { trace := emit { atPrompt with command_running := true }
          [Event.fork 0 0, Event.openIn ['a', ' ', '>', ' ', 'b'] true, Event.dup2File 0 true,
            Event.closeFile, Event.execvp [['c', 'a', 't']]]
        outcome := Outcome.replaced [['c', 'a', 't']] } ∧
    execute_command (childOS 0) atPrompt line_out_in =
      { trace := emit { atPrompt with command_running := true }
          [Event.fork 0 0, Event.openIn ['a'] true, Event.dup2File 0 true, Event.closeFile,
            Event.openOut ['b'] false true, Event.dup2File 1 true, Event.closeFile,
            Event.execvp [['c', 'a', 't']]]
        outcome := Outcome.replaced [['c', 'a', 't']] } ∧
    main_iteration (childOS 0) atPrompt line_in_out =
      execute_command (childOS 0) atPrompt line_in_out := by
  decide

end Shell
